import Mathlib

/-!
# Verification of the subnet commit-reveal runtime against its specification

This file contains a shallow embedding, in Lean 4, of the core algorithms of
the `subnet-commit-reveal-example` repository, together with theorems that
settle the behavioural claims made by the specification.

Embedding conventions:

* Python byte strings are `List Nat`; Python floats (timestamps, epoch
  progress percentages, scores) are `ℚ`, so every comparison in the source is
  mirrored exactly and no rounding questions arise.
* Components of the repository that the source under verification imports but
  whose code is not part of the repository snapshot (the MessagePack
  serializer, the Ed25519/RSA primitives, SHA-256, the `TimedStorage`
  container, DHTID hashing and peer-id derivation) are modelled from the
  specification's description of their contracts; each such definition
  carries a doc comment starting with `Modelled from the spec:`.
* Stateful methods become explicit state-passing functions; the blockchain
  client and the DHT are passed in as oracle functions.
-/

namespace SubnetCR

/-! ## Byte strings -/

abbrev Bytes := List Nat

/-! ## Claim C5: `compare_consensus_data` (src/mesh/subnet/consensus/utils.py) -/

/-- Embedding of `compare_consensus_data` from
`src/mesh/subnet/consensus/utils.py`.  `set(frozenset(xs))` in Python is the
set of elements of `xs`, modelled as `List.toFinset`.  The element type is
kept generic (in the source the elements are hashable
`SubnetNodeConsensusData(subnet_node_id, score)` records, i.e. pairs). -/
def compare_consensus_data {α : Type} [DecidableEq α]
    (my_data validator_data : List α) : ℚ :=
  let validator_data_set := validator_data.toFinset
  let my_data_set := my_data.toFinset
  let intersection := my_data_set ∩ validator_data_set
  let union := my_data_set ∪ validator_data_set
  if union = ∅ then 100
  else ((intersection.card : ℚ) / (union.card : ℚ))

/-! ## Claim C10: `ProofOfStake.is_peer_staked` (src/mesh/utils/proof_of_stake.py) -/

/-- A Python value as it may appear under the `"result"` key of the reply of
the blockchain client's `proof_of_stake` RPC.  The `is`-comparisons of the
source distinguish the actual booleans `True`/`False` from everything else,
which the variant structure mirrors. -/
inductive PyVal where
  | pybool (b : Bool)
  | pyint (n : Int)
  | pystr (s : String)
  | pynone
  deriving DecidableEq

/-- Embedding of `ProofOfStake.is_peer_staked`: the reply dictionary is an
association list.  `"result" not in result` → `False`; a value that
`is not True and is not False` → `False`; otherwise the boolean itself. -/
def is_peer_staked (reply : List (String × PyVal)) : Bool :=
  match reply.lookup "result" with
  | none => false
  | some (PyVal.pybool b) => b
  | some _ => false

/-- Embedding of `ProofOfStake.is_staked`, which simply forwards to
`is_peer_staked`. -/
def is_staked (reply : List (String × PyVal)) : Bool :=
  is_peer_staked reply

/-! ## Claim C6: `ProofOfStake.proof_of_stake` caches (src/mesh/utils/proof_of_stake.py) -/

/-- The two process-local caches of `ProofOfStake`: last successful and last
failed proof-of-stake timestamp per peer (peers are identified by `Nat`;
`get_peer_id_from_pubkey`, not part of the snapshot, derives the peer id
injectively from the public key per the spec, so peers are used directly). -/
structure PoSState where
  success : Nat → Option ℚ
  fail : Nat → Option ℚ

/-- The caches at construction time: empty. -/
def PoSState.initial : PoSState := ⟨fun _ => none, fun _ => none⟩

/-- `ProofOfStake.get_peer_id_last_success`: `dict.get(peer_id, 0)`. -/
def get_peer_id_last_success (s : PoSState) (p : Nat) : ℚ :=
  (s.success p).getD 0

/-- `ProofOfStake.get_peer_id_last_fail`: `dict.get(peer_id, 0)`. -/
def get_peer_id_last_fail (s : PoSState) (p : Nat) : ℚ :=
  (s.fail p).getD 0

/-- `ProofOfStake.update_peer_id_success`: record the time and evict the
peer from the failure cache. -/
def update_peer_id_success (s : PoSState) (p : Nat) (now : ℚ) : PoSState :=
  { success := fun q => if q = p then some now else s.success q
    fail := fun q => if q = p then none else s.fail q }

/-- `ProofOfStake.update_peer_id_fail`: record the time and evict the peer
from the success cache. -/
def update_peer_id_fail (s : PoSState) (p : Nat) (now : ℚ) : PoSState :=
  { success := fun q => if q = p then none else s.success q
    fail := fun q => if q = p then some now else s.fail q }

/-- Both cooldowns are 300 seconds in the source. -/
def pos_fail_cooldown : ℚ := 300

def pos_success_cooldown : ℚ := 300

/-- Embedding of `ProofOfStake.proof_of_stake`.  `oracle p` is the result of
the on-chain staking check (`is_staked`, reached only on the slow path) and
the third component of the result records whether that blockchain query was
issued.  Python's `if last_fail and ...` tests truthiness, hence the `≠ 0`
conjuncts. -/
def proof_of_stake (s : PoSState) (oracle : Nat → Bool) (p : Nat) (now : ℚ) :
    Bool × PoSState × Bool :=
  let last_fail := get_peer_id_last_fail s p
  if last_fail ≠ 0 ∧ now - last_fail < pos_fail_cooldown then
    (false, s, false)
  else
    let last_success := get_peer_id_last_success s p
    if last_success ≠ 0 ∧ now - last_success < pos_success_cooldown then
      (true, s, false)
    else if oracle p then
      (true, update_peer_id_success s p now, true)
    else
      (false, update_peer_id_fail s p now, true)

/-- The disjointness invariant of the two caches: no peer has entries in
both at once. -/
def PoSDisjoint (s : PoSState) : Prop :=
  ∀ p : Nat, s.success p = none ∨ s.fail p = none

/-- One step of the cache state machine: the state left behind by a
`proof_of_stake` call. -/
def posStep (oracle : Nat → Bool) (s : PoSState) (c : Nat × ℚ) : PoSState :=
  (proof_of_stake s oracle c.1 c.2).2.1

/-- The state after a sequence of `proof_of_stake` calls `(peer, time)`. -/
def posRun (oracle : Nat → Bool) (s : PoSState) (calls : List (Nat × ℚ)) :
    PoSState :=
  calls.foldl (posStep oracle) s

/-! ## Ideal cryptography and canonical serialization

The repository snapshot does not include `mesh/utils/crypto.py` (Ed25519/RSA
key objects) or `mesh/utils/serializer.py` (`MSGPackSerializer`); the spec
describes their contracts: deterministic signatures verified under the
serialized public key embedded in the data, and a canonical (injective)
serialization.  They are modelled as an ideal deterministic signature
scheme over byte strings. -/

/-- Modelled from the spec: a length-prefixed chunk, the building block of
the injective canonical serializations (`MSGPackSerializer.dumps` of tuples
and protobuf `SerializeToString`, neither part of the snapshot).  A chunk is
self-delimiting, so concatenations of chunks are injective. -/
def encodeChunk (l : Bytes) : Bytes := List.replicate l.length 1 ++ 0 :: l

/-- Modelled from the spec: base64-style armouring of signature bytes.  Real
Ed25519/RSA signatures are serialized in base64 in the key blobs, so they
never contain the bytes `]` (93) or `\n` (10); the model maps every input
byte injectively to the alphabet `{65, 66}` and closes with 67. -/
def safeBody (e : Bytes) : Bytes := e.flatMap (fun b => 65 :: List.replicate b 66)

/-- Modelled from the spec: the unique valid signature of `msg` under the
(serialized) public key `pk` of an ideal deterministic signature scheme. -/
def idealSig (pk msg : Bytes) : Bytes := safeBody (encodeChunk pk ++ msg) ++ [67]

/-- Modelled from the spec: the serialized public key of the keypair with
secret `sk` (`private_key.get_public_key().to_bytes()`); injective in `sk`
and base64-armoured like real serialized ssh keys. -/
def pubKey (sk : Nat) : Bytes := List.replicate (sk + 1) 66

/-- Modelled from the spec: `private_key.sign(msg)`. -/
def signBytes (sk : Nat) (msg : Bytes) : Bytes := idealSig (pubKey sk) msg

/-- Modelled from the spec: `public_key.verify(msg, signature)` — true
exactly for the signature produced with the matching private key. -/
def verifyBytes (pk msg s : Bytes) : Bool := decide (s = idealSig pk msg)

/-- An injective byte encoding of a Python float modelled as `ℚ`
(sign/magnitude of the numerator, then the denominator). -/
def intEnc (n : Int) : Bytes := if 0 ≤ n then [0, n.toNat] else [1, (-n).toNat]

def ratEnc (q : ℚ) : Bytes := intEnc q.num ++ [q.den]

/-! ## Claim C1: `SignatureValidator` (src/mesh/dht/crypto.py)

The validator scans key/subkey for `[owner:<pub>]` tags and the value for
`[signature:<sig>]` tags with Python's non-greedy regexes
`re.escape(b"[owner:") + rb"(.+?)" + re.escape(b"]")` (and likewise for the
signature), using `findall` and `sub`.  The scanning functions below
implement exactly those semantics on byte strings: a match is the literal
tag head, then the shortest nonempty run of non-newline bytes up to the
next `]`; `findall` resumes after each match and advances one byte past a
failed position; `sub` deletes every match. -/

/-- `b"[owner:"`. -/
def ownerTagHead : Bytes := [91, 111, 119, 110, 101, 114, 58]

/-- `b"[signature:"`. -/
def sigTagHead : Bytes := [91, 115, 105, 103, 110, 97, 116, 117, 114, 101, 58]

/-- The capture run after the first mandatory byte: everything up to the
first `]` (93), failing on a newline (10), which `.` does not match. -/
def findClose : Bytes → Option (Bytes × Bytes)
  | [] => none
  | c :: t =>
    if c = 93 then some ([], t)
    else if c = 10 then none
    else
      match findClose t with
      | some (pre, post) => some (c :: pre, post)
      | none => none

/-- The non-greedy capture `(.+?)]`: at least one non-newline byte, then
the closing `]`; returns the capture and the remainder after the `]`. -/
def captureAfterTag : Bytes → Option (Bytes × Bytes)
  | [] => none
  | c :: t =>
    if c = 10 then none
    else
      match findClose t with
      | some (pre, post) => some (c :: pre, post)
      | none => none

/-- The owner tag head without its leading `[`. -/
def ownerTagBody : Bytes := [111, 119, 110, 101, 114, 58]

/-- The signature tag head without its leading `[`. -/
def sigTagBody : Bytes := [115, 105, 103, 110, 97, 116, 117, 114, 101, 58]

/-- Attempt a whole-tag match at the head of `s`. -/
def tryMatch (tag s : Bytes) : Option (Bytes × Bytes) :=
  if tag.isPrefixOf s then captureAfterTag (s.drop tag.length) else none

/-- `re.findall` of the tag pattern, with explicit fuel (one unit per
consumed byte) to keep the recursion structural. -/
def findallF (tag : Bytes) : Nat → Bytes → List Bytes
  | 0, _ => []
  | fuel + 1, s =>
    match tryMatch tag s with
    | some (cap, rem) => cap :: findallF tag fuel rem
    | none =>
      match s with
      | [] => []
      | _ :: t => findallF tag fuel t

/-- `PATTERN.findall(s)`: all captures, scanning left to right. -/
def findall (tag s : Bytes) : List Bytes := findallF tag s.length s

/-- `re.sub(PATTERN, b"", s)` with fuel. -/
def stripTagsF (tag : Bytes) : Nat → Bytes → Bytes
  | 0, s => s
  | fuel + 1, s =>
    match tryMatch tag s with
    | some (_, rem) => stripTagsF tag fuel rem
    | none =>
      match s with
      | [] => []
      | c :: t => c :: stripTagsF tag fuel t

/-- `PATTERN.sub(b"", s)`: the input with every match deleted. -/
def stripTags (tag s : Bytes) : Bytes := stripTagsF tag s.length s

/-- `PUBLIC_KEY_FORMAT.replace(b"_key_", pk)`: the full owner tag. -/
def ownerTag (pk : Bytes) : Bytes := ownerTagHead ++ pk ++ [93]

/-- `SIGNATURE_FORMAT.replace(b"_value_", s)`: the full signature tag. -/
def sigWrap (s : Bytes) : Bytes := sigTagHead ++ s ++ [93]

/-- A DHT record as seen by the record validators. -/
structure DHTRec where
  key : Bytes
  subkey : Bytes
  value : Bytes
  expiration_time : ℚ

/-- Modelled from the spec:
`MSGPackSerializer.dumps(dataclasses.astuple(record))` — the canonical
injective serialization of `(key, subkey, value, expiration_time)`. -/
def serializeRecord (r : DHTRec) : Bytes :=
  encodeChunk r.key ++ encodeChunk r.subkey ++ encodeChunk r.value ++
    encodeChunk (ratEnc r.expiration_time)

/-- `SignatureValidator.strip_value`: delete every signature tag from the
value. -/
def strip_value (r : DHTRec) : Bytes := stripTags sigTagHead r.value

/-- Embedding of `SignatureValidator.validate` (POST/GET treat records
identically in the source).  In source order: collect the owner-tag
captures of key and subkey (records always reach the validator with a
subkey); unprotected records pass; more than one distinct owner key fails;
exactly one signature tag is required; the signature is verified over the
serialization of the record with the signature stripped from its value,
under the embedded owner key. -/
def validateSig (r : DHTRec) : Bool :=
  match findall ownerTagHead r.key ++ findall ownerTagHead r.subkey with
  | [] => true
  | pk :: rest =>
    if 1 < ((pk :: rest).dedup).length then false
    else
      match findall sigTagHead r.value with
      | [s] => verifyBytes pk (serializeRecord { r with value := strip_value r }) s
      | _ => false

/-- The signature half of `validate` in isolation: exactly one signature
tag, verified over the record rebuilt from the stripped value (`F` maps a
value to the serialization of the record carrying it).  `validateSig` on a
protected record reduces to this (see `validateSig_protected`); the
tampering analysis is carried out on it. -/
def sigCheck (pk : Bytes) (F : Bytes → Bytes) (w : Bytes) : Bool :=
  match findall sigTagHead w with
  | [c] => verifyBytes pk (F (stripTags sigTagHead w)) c
  | _ => false

/-- Embedding of `SignatureValidator.sign_value`: if the local owner tag
occurs in key or subkey, append `[signature:<sig>]` where the signature is
over the serialized record (with the original value); otherwise return the
value unchanged. -/
def signValue (sk : Nat) (r : DHTRec) : Bytes :=
  if ownerTag (pubKey sk) <:+: r.key ∨ ownerTag (pubKey sk) <:+: r.subkey
  then r.value ++ sigWrap (signBytes sk (serializeRecord r))
  else r.value

/-! ## Claim C3: `SignatureAuthorizer` (src/mesh/utils/authorizers/auth.py) -/

/-- The fields of an authorized request that
`SignatureAuthorizer.do_validate_request` inspects:
`auth.client_access_token.public_key`, `auth.service_public_key` (`[]` when
unset, the protobuf default), `auth.time`, `auth.nonce`, `auth.signature`. -/
structure AuthRequest where
  client_public_key : Bytes
  service_public_key : Bytes
  time : ℚ
  nonce : Bytes
  signature : Bytes

/-- Modelled from the spec: `request.SerializeToString()` — a canonical
injective serialization of the request fields.  `do_validate_request`
serializes with the signature field zeroed. -/
def serializeRequest (r : AuthRequest) : Bytes :=
  encodeChunk r.client_public_key ++ encodeChunk r.service_public_key ++
    encodeChunk (ratEnc r.time) ++ encodeChunk r.nonce ++ encodeChunk r.signature

/-- The recent-nonce `TimedStorage` as a list of `(nonce, expiration)`
entries. -/
abbrev NonceStore := List (Bytes × ℚ)

/-- Modelled from the spec: membership in `TimedStorage` — the stored keys
whose expiration time has not yet passed. -/
def nonceSeen (store : NonceStore) (nonce : Bytes) (now : ℚ) : Bool :=
  store.any (fun e => e.1 == nonce && decide (now ≤ e.2))

/-- `_MAX_CLIENT_SERVICER_TIME_DIFF.total_seconds()`: one minute. -/
def MAX_CLIENT_SERVICER_TIME_DIFF : ℚ := 60

/-- Embedding of `SignatureAuthorizer.do_validate_request` (the boolean
component of its result).  In source order: signature verification under the
token's embedded public key; the optional service-key binding (Python
truthiness of the bytes, hence `≠ []`); the clock-skew bound; the nonce
check inside the freeze window; and the second, post-freeze nonce check. -/
def do_validate_request (localPub : Bytes) (store : NonceStore)
    (r : AuthRequest) (now : ℚ) : Bool :=
  if ¬ verifyBytes r.client_public_key
      (serializeRequest { r with signature := [] }) r.signature then false
  else if r.service_public_key ≠ [] ∧ r.service_public_key ≠ localPub then false
  else if |r.time - now| > MAX_CLIENT_SERVICER_TIME_DIFF then false
  else if nonceSeen store r.nonce now then false
  else if nonceSeen store r.nonce now then false
  else true

/-- Embedding of `SignatureAuthorizer.validate_request`: on success the
nonce is stored with expiration `current_time + 3 × 60 s`. -/
def validate_request (localPub : Bytes) (store : NonceStore) (r : AuthRequest)
    (now : ℚ) : Bool × NonceStore :=
  if do_validate_request localPub store r now then
    (true, (r.nonce, now + MAX_CLIENT_SERVICER_TIME_DIFF * 3) :: store)
  else (false, store)

/-! ## Claims C2 and C9: `MockHypertensorCommitReveal` (src/mesh/subnet/utils/mock_commit_reveal.py) -/

/-- DHT record request kind (`DHTRecordRequestType`). -/
inductive ReqType where
  | GET
  | POST
  deriving DecidableEq

/-- The key families recognised by `_get_key_type` (the values of the
`valid_keys` dictionary). -/
inductive KeyType where
  | node
  | verifier_commit
  | verifier_reveal
  | scores_reveal
  | scores_commit
  deriving DecidableEq

/-- `src/mesh/substrate/config.py`: `BLOCK_SECS = 6`. -/
def BLOCK_SECS : ℚ := 6

/-- `src/mesh/substrate/config.py`: `EPOCH_LENGTH = 300`. -/
def EPOCH_LENGTH : ℚ := 300

def MAX_HEART_BEAT_TIME : ℚ := BLOCK_SECS * EPOCH_LENGTH * (11 / 10)

def MAX_COMMIT_TIME : ℚ := BLOCK_SECS * EPOCH_LENGTH * 5

def MAX_REVEAL_TIME : ℚ := BLOCK_SECS * EPOCH_LENGTH * 5

def VERIFIER_COMMIT_DEADLINE : ℚ := 1 / 2

def VERIFIER_REVEAL_DEADLINE : ℚ := 3 / 5

def SCORES_REVEAL_DEADLINE : ℚ := 3 / 5

/-- `f"verifier_commit_epoch_{epoch}"`. -/
def get_verifier_commit_key (epoch : Nat) : String :=
  "verifier_commit_epoch_" ++ toString epoch

/-- `f"verifier_reveal_epoch_{epoch}"`. -/
def get_verifier_reveal_key (epoch : Nat) : String :=
  "verifier_reveal_epoch_" ++ toString epoch

/-- `f"scores_commit_epoch_{epoch}"`. -/
def get_scores_commit_key (epoch : Nat) : String :=
  "scores_commit_epoch_" ++ toString epoch

/-- `f"scores_reveal_epoch_{epoch}"`. -/
def get_scores_reveal_key (epoch : Nat) : String :=
  "scores_reveal_epoch_" ++ toString epoch

/-- The `per_peer_epoch_limits` dictionary: 100 stores per epoch for the
heartbeat, 1 for each commit-reveal family. -/
def per_peer_epoch_limits : KeyType → Nat
  | KeyType.node => 100
  | _ => 1

/-- `MockHypertensorCommitReveal.MAX_EPOCH_HISTORY`. -/
def MAX_EPOCH_HISTORY : Nat := 5

/-- The per-peer per-epoch store counters
(`self._peer_store_tracker`, a triply nested `defaultdict(int)`). -/
structure CRState where
  tracker : Nat → KeyType → String → Nat

/-- The tracker at construction time: all counters zero. -/
def CRState.initial : CRState := ⟨fun _ _ _ => 0⟩

/-- `_has_exceeded_store_limit`: `count >= limit`. -/
def has_exceeded_store_limit (st : CRState) (peer : String) (kt : KeyType)
    (epoch : Nat) : Bool :=
  per_peer_epoch_limits kt ≤ st.tracker epoch kt peer

/-- `_record_peer_store`: increment the counter after a successful PUT. -/
def record_peer_store (st : CRState) (peer : String) (kt : KeyType)
    (epoch : Nat) : CRState :=
  ⟨fun e k p =>
    if e = epoch ∧ k = kt ∧ p = peer then st.tracker e k p + 1
    else st.tracker e k p⟩

/-- `_cleanup_old_epochs`: drop counters for epochs `e` with
`e < current_epoch - MAX_EPOCH_HISTORY` (Python never sees negative epochs,
so truncated `Nat` subtraction agrees with the source). -/
def cleanup_old_epochs (st : CRState) (current_epoch : Nat) : CRState :=
  ⟨fun e k p =>
    if e < current_epoch - MAX_EPOCH_HISTORY then 0 else st.tracker e k p⟩

/-- Embedding of `_get_key_type`.  The source builds a dictionary from
`DHTID.generate(source).to_bytes()` to the family name and looks the record
key up in it; `DHTID.generate` (not part of the snapshot) is, per the spec,
an injective hash of the human-readable source string, so the lookup is
modelled as comparison of the record key with the five source strings of the
current epoch (which are pairwise distinct). -/
def getKeyType (key : String) (current_epoch : Nat) : Option KeyType :=
  if key = "node" then some KeyType.node
  else if key = get_scores_reveal_key current_epoch then some KeyType.scores_reveal
  else if key = get_verifier_commit_key current_epoch then some KeyType.verifier_commit
  else if key = get_verifier_reveal_key current_epoch then some KeyType.verifier_reveal
  else if key = get_scores_commit_key current_epoch then some KeyType.scores_commit
  else none

/-- The slice of a DHT record that `MockHypertensorCommitReveal.__call__`
inspects.  `subkey_peer` is the result of
`extract_peer_id_from_record_validator(record.subkey)` (that helper is not
part of the snapshot; per the spec the subkey of a protected record carries
the writer's public key, from which the peer id is derived, and `None`
means the record has no valid public-key subkey). -/
structure CRRecord where
  key : String
  subkey_peer : Option String
  expiration_time : ℚ

/-- The slice of `EpochData` consumed by the predicate validator. -/
structure EpochDataM where
  epoch : Nat
  percent_complete : ℚ

/-- The `percent_complete` window of each key family, i.e. the negation of
the early-return conditions of the corresponding `elif` branch of
`__call__`. -/
def phase_ok (kt : KeyType) (percent_complete : ℚ) : Bool :=
  match kt with
  | KeyType.node => true
  | KeyType.verifier_commit => decide (percent_complete ≤ VERIFIER_COMMIT_DEADLINE)
  | KeyType.verifier_reveal =>
      decide (VERIFIER_COMMIT_DEADLINE < percent_complete ∧
        percent_complete ≤ VERIFIER_REVEAL_DEADLINE)
  | KeyType.scores_reveal =>
      decide (VERIFIER_COMMIT_DEADLINE < percent_complete ∧
        percent_complete ≤ SCORES_REVEAL_DEADLINE)
  | KeyType.scores_commit => decide (SCORES_REVEAL_DEADLINE < percent_complete)

/-- The expiration bound of each key family, i.e. the negation of the
`record.expiration_time > dht_time + MAX_*` early returns of `__call__`. -/
def expiration_ok (kt : KeyType) (exp dht_time : ℚ) : Bool :=
  match kt with
  | KeyType.node => decide (exp ≤ dht_time + MAX_HEART_BEAT_TIME)
  | KeyType.verifier_commit => decide (exp ≤ dht_time + MAX_COMMIT_TIME)
  | KeyType.verifier_reveal => decide (exp ≤ dht_time + MAX_REVEAL_TIME)
  | KeyType.scores_reveal => decide (exp ≤ dht_time + MAX_REVEAL_TIME)
  | KeyType.scores_commit => decide (exp ≤ dht_time + MAX_COMMIT_TIME)

/-- Embedding of `MockHypertensorCommitReveal.__call__`.  `ep` is the
`EpochData` returned by the blockchain client and `dht_time` the value of
`get_dht_time()`; both are inputs of the state machine.  The result is the
boolean verdict together with the tracker state left behind (the source
mutates `self._peer_store_tracker` via `_cleanup_old_epochs` and
`_record_peer_store`). -/
def mockCall (st : CRState) (r : CRRecord) (ty : ReqType) (ep : EpochDataM)
    (dht_time : ℚ) : Bool × CRState :=
  match r.subkey_peer with
  | none => (false, st)
  | some peer =>
    if ty = ReqType.GET then (true, st)
    else
      let st1 := cleanup_old_epochs st ep.epoch
      match getKeyType r.key ep.epoch with
      | none => (false, st1)
      | some kt =>
        if has_exceeded_store_limit st1 peer kt ep.epoch then (false, st1)
        else if phase_ok kt ep.percent_complete ∧
            expiration_ok kt r.expiration_time dht_time then
          (true, record_peer_store st1 peer kt ep.epoch)
        else (false, st1)

/-- A POST call as an input triple `(record, epoch data, dht time)`. -/
abbrev CRCall := CRRecord × EpochDataM × ℚ

/-- A sequence of POSTs through the validator, threading the tracker. -/
def mockRun (st : CRState) (calls : List CRCall) : CRState :=
  match calls with
  | [] => st
  | c :: rest => mockRun (mockCall st c.1 ReqType.POST c.2.1 c.2.2).2 rest

/-- The number of accepted POSTs in a call sequence that store to family
`kt` (at epoch `E`) under peer `P`, threading the tracker state. -/
def acceptedStores (kt : KeyType) (P : String) (E : Nat) :
    CRState → List CRCall → Nat
  | _, [] => 0
  | st, c :: rest =>
    let res := mockCall st c.1 ReqType.POST c.2.1 c.2.2
    (if res.1 = true ∧ getKeyType c.1.key E = some kt ∧
        c.1.subkey_peer = some P then 1 else 0)
      + acceptedStores kt P E res.2 rest

/-! ## Claim C4: `TaskCommitReveal.verify_and_score_peers` scoring
(src/mesh/subnet/consensus/task.py, steps 1-4) -/

/-- The fields of a `MathData` entry used by the scoring steps. -/
structure MathDataM where
  peer_id : String
  score : ℚ

/-- `src/mesh/subnet/utils/consensus.py`: `BASE_VALIDATOR_SCORE = 1.0`. -/
def BASE_VALIDATOR_SCORE : ℚ := 1

/-- `src/mesh/subnet/utils/consensus.py`: `EPSILON = 1e-8`. -/
def EPSILON : ℚ := 1 / 100000000

/-- The `results` dictionary of `verify_and_score_peers` after the
collection loop: each hash-verified verifier's reveal, as
`verifier peer id → its list of MathData`. -/
abbrev Results := List (String × List MathDataM)

/-- Step 1: `peer_scores[peer_id]` — every score the prover `p` received,
collected across all verifiers in iteration order. -/
def peerScores (results : Results) (p : String) : List ℚ :=
  (results.flatMap (fun vr => vr.2.filter (fun m => m.peer_id == p))).map
    (fun m => m.score)

/-- Step 2: `statistics.mean` of the prover's scores (`sum / count`; the
mean is only ever looked up for provers with at least one score). -/
def peerMean (results : Results) (p : String) : ℚ :=
  (peerScores results p).sum / ((peerScores results p).length : ℚ)

/-- Step 3, inner loop: `error_sum` accumulated over one verifier's
entries; the `if mean is not None` guard corresponds to the prover having
at least one collected score. -/
def errorSum (results : Results) (round_scores : List MathDataM) : ℚ :=
  round_scores.foldl
    (fun acc m =>
      if peerScores results m.peer_id ≠ [] then
        acc + (m.score - peerMean results m.peer_id) ^ 2
      else acc) 0

/-- Step 3: `validator_errors`. -/
def validator_errors (results : Results) : List (String × ℚ) :=
  results.map (fun vr => (vr.1, errorSum results vr.2))

/-- Python's `max(values, default=1.0)`. -/
def maxErrorList : List ℚ → ℚ
  | [] => 1
  | x :: xs => xs.foldl max x

/-- Step 4: `max_error = max(validator_errors.values(), default=1.0)`. -/
def max_error (results : Results) : ℚ :=
  maxErrorList ((validator_errors results).map (fun v => v.2))

/-- Step 4: `max(BASE_VALIDATOR_SCORE - error / (max_error + EPSILON), 0.0)`
per verifier. -/
def validator_scores (results : Results) : List (String × ℚ) :=
  (validator_errors results).map
    (fun v => (v.1, max (BASE_VALIDATOR_SCORE - v.2 / (max_error results + EPSILON)) 0))

/-- Python's `int()`: truncation toward zero. -/
def pyInt (q : ℚ) : Int := if 0 ≤ q then ⌊q⌋ else ⌈q⌉

/-- `ConsensusScores(peer_id=..., score=int(score * 1e18))`. -/
def consensus_scores (results : Results) : List (String × Int) :=
  (validator_scores results).map (fun v => (v.1, pyInt (v.2 * 10 ^ 18)))

/-! ## Claim C7: `TaskCommitReveal.verify_score_reveals`
(src/mesh/subnet/consensus/task.py) -/

/-- A value stored in a DHT record entry: a raw digest (`bytes`), a reveal
payload dictionary `{"salt": ..., "bytes": ...}`, or anything else.  The
per-entry `try` of the collection loop turns every shape mismatch into a
skip. -/
inductive StoredVal where
  | bytes (b : Bytes)
  | payload (salt : Bytes) (body : Bytes)
  | other
  deriving DecidableEq

/-- Modelled from the spec: SHA-256 as an injective digest function. -/
def sha256M (b : Bytes) : Bytes := encodeChunk b

/-- Modelled from the spec: `pickle.dumps` of a list of
`(subnet_node_id, score)` pairs — an injective flat encoding. -/
def pickleDumpsPairs (l : List (Int × Int)) : Bytes :=
  l.flatMap (fun p => intEnc p.1 ++ intEnc p.2)

/-- Decoder of a single `intEnc` value. -/
def intDec : Bytes → Option (Int × Bytes)
  | 0 :: n :: rest => some ((n : Int), rest)
  | 1 :: n :: rest => some (-(n : Int), rest)
  | _ => none

def pickleLoadsAux : Nat → Bytes → Option (List (Int × Int))
  | _, [] => some []
  | 0, _ => none
  | fuel + 1, b =>
    match intDec b with
    | none => none
    | some (x, r1) =>
      match intDec r1 with
      | none => none
      | some (y, r2) => (pickleLoadsAux fuel r2).map (fun l => (x, y) :: l)

/-- Modelled from the spec: `pickle.loads`, the partial inverse of
`pickleDumpsPairs` (`none` models the deserialization exception, which the
collection loop turns into a skip). -/
def pickleLoadsPairs (b : Bytes) : Option (List (Int × Int)) :=
  pickleLoadsAux b.length b

/-- The slice of on-chain `ConsensusData` that `verify_score_reveals`
consumes: `attests` (a list of one-key dictionaries, kept as their key
lists), `subnet_nodes`, and the proposed `data` as
`(subnet_node_id, score)` pairs. -/
structure ConsensusDataM where
  attests : List (List Nat)
  subnet_nodes : List Nat
  data : List (Int × Int)

/-- `get_attestation_ratio`: `len(attests) / len(subnet_nodes)`. -/
def get_attestation_ratio (cd : ConsensusDataM) : ℚ :=
  (cd.attests.length : ℚ) / (cd.subnet_nodes.length : ℚ)

/-- `did_node_attest`: scan every attest item's keys for the node id;
comparison with a `None` node id is always false, as in Python. -/
def did_node_attest (nid : Option Nat) (cd : ConsensusDataM) : Bool :=
  cd.attests.any (fun item => item.any (fun i => some i = nid))

/-- `get_peers_node_id`: first included node whose `peer_id` matches, else
`None`.  `included_nodes` entries are `(subnet_node_id, peer_id)`. -/
def get_peers_node_id (peer : String) (nodes : List (Nat × String)) : Option Nat :=
  (nodes.find? (fun n => n.2 == peer)).map (fun n => n.1)

/-- One iteration of the reveal-collection loop of `verify_score_reveals`:
extract the writer's peer id from the record subkey, find its subnet node
id, skip unless that node attested, check the commit digest from two epochs
earlier, and deserialize the revealed scores.  `none` is a skip (the
source's `continue` or a caught per-entry exception). -/
def processReveal (extract : Bytes → Option String) (cd : ConsensusDataM)
    (included : List (Nat × String)) (commits : List (Bytes × StoredVal))
    (entry : Bytes × StoredVal) : Option (String × List (Int × Int)) :=
  match extract entry.1 with
  | none => none
  | some peer =>
    if did_node_attest (get_peers_node_id peer included) cd = false then none
    else
      match entry.2 with
      | StoredVal.payload salt body =>
        match commits.lookup entry.1 with
        | some (StoredVal.bytes digest) =>
          if digest = sha256M (salt ++ body) then
            match pickleLoadsPairs body with
            | some raw => some (peer, raw)
            | none => none
          else none
        | _ => none
      | _ => none

/-- Python dict assignment `results[peer] = raw`: overwrite an existing key
in place, else append. -/
def upsert (res : List (String × List (Int × Int))) (k : String)
    (v : List (Int × Int)) : List (String × List (Int × Int)) :=
  if res.any (fun e => e.1 == k) then
    res.map (fun e => if e.1 == k then (k, v) else e)
  else res ++ [(k, v)]

/-- The reveal-collection loop: fold `processReveal` over the reveal
records, building the `results` dictionary. -/
def collectReveals (extract : Bytes → Option String) (cd : ConsensusDataM)
    (included : List (Nat × String)) (commits : List (Bytes × StoredVal))
    (reveals : List (Bytes × StoredVal)) : List (String × List (Int × Int)) :=
  reveals.foldl
    (fun res entry =>
      match processReveal extract cd included commits entry with
      | none => res
      | some (p, raw) => upsert res p raw) []

/-- Embedding of `TaskCommitReveal.verify_score_reveals`.  `dht key` is
`self.dht.get(key, latest=True)` (`none` = `None`); `chain e` is
`get_consensus_data_formatted(subnet_id, e)`; `extract` is
`extract_peer_id_from_record_validator` (not part of the snapshot).  When
only the reveal side is missing, `reveal_records.value` on the `or {}`
fallback dictionary raises, so the call produces no scores (`none`). -/
def verify_score_reveals (extract : Bytes → Option String)
    (dht : String → Option (List (Bytes × StoredVal)))
    (chain : Nat → Option ConsensusDataM)
    (target_epoch : Nat) (included : List (Nat × String)) :
    Option (List (String × Int)) :=
  let commit_records := dht (get_scores_commit_key (target_epoch - 2))
  let reveal_records := dht (get_scores_reveal_key target_epoch)
  if reveal_records.isNone ∧ commit_records.isNone then none
  else
    match chain (target_epoch - 2) with
    | none => none
    | some cd =>
      if get_attestation_ratio cd < 66 / 100 then none
      else
        match reveal_records with
        | none => none
        | some reveals =>
          some ((collectReveals extract cd included (commit_records.getD [])
              reveals).map
            (fun e => (e.1, pyInt (compare_consensus_data e.2 cd.data * 10 ^ 18))))

/-! ## Claim C8: `Consensus.run_activate_subnet` (src/mesh/subnet/consensus/consensus.py) -/

/-- The slice of `get_formatted_subnet_info` that `run_activate_subnet`
inspects: the subnet's on-chain state string. -/
structure SubnetInfoM where
  state : String
  deriving DecidableEq

/-- Outcome of the activation wait loop.  `active` is the `subnet_active =
True; break` path, `shutdownFalse` is the abort path (the loop calls
`self.shutdown()` and returns `False`), and `pending` means the supplied
window of per-epoch readings ended with the loop still waiting. -/
inductive ActResult where
  | active
  | shutdownFalse
  | pending
  deriving DecidableEq

/-- Embedding of the per-epoch body of `Consensus.run_activate_subnet`.

Each element of `readings` is the value of
`self.hypertensor.get_formatted_subnet_info(self.subnet_id)` observed at one
new epoch (the loop only acts when `current_epoch != last_epoch`; the slot
is assumed resolved).  On a `None` reading the source tests
`errors_count > max_errors` (with `max_errors = 3`) *before* incrementing
`errors_count`, and `errors_count` is never reset by a successful read whose
state is not `Active`. -/
def runActivateAux : Nat → List (Option SubnetInfoM) → ActResult
  | _, [] => ActResult.pending
  | errors_count, r :: rest =>
    match r with
    | none =>
      if errors_count > 3 then ActResult.shutdownFalse
      else runActivateAux (errors_count + 1) rest
    | some info =>
      if info.state = "Active" then ActResult.active
      else runActivateAux errors_count rest

/-- `run_activate_subnet` starts with `errors_count = 0`. -/
def runActivate (readings : List (Option SubnetInfoM)) : ActResult :=
  runActivateAux 0 readings

end SubnetCR

/-! # Theorems -/

namespace SubnetCR

/-! ## C5 -/

theorem compare_self_nonempty {α : Type} [DecidableEq α] (x : List α)
    (hx : x ≠ []) : compare_consensus_data x x = 1 := by
  unfold compare_consensus_data
  simp only [Finset.inter_self, Finset.union_self]
  have hne : x.toFinset ≠ ∅ := by
    simpa [List.toFinset_eq_empty_iff] using hx
  rw [if_neg hne]
  have hpos : 0 < x.toFinset.card :=
    Finset.card_pos.mpr (Finset.nonempty_iff_ne_empty.mpr hne)
  have hcard : (x.toFinset.card : ℚ) ≠ 0 := by
    exact_mod_cast hpos.ne'
  exact div_self hcard

/-- Claim C5, as frozen, asserts `compare_consensus_data(x, x) == 1.0` for
every list `x`; the empty list refutes it, since the source returns `100.0`
when the union of the element sets is empty. -/
theorem c5_counterexample :
    compare_consensus_data ([] : List (Int × Int)) [] ≠ 1 := by
  unfold compare_consensus_data
  norm_num

/-- Claim C5 (amended): `compare_consensus_data x x = 1` for `x` with a
nonempty element set, `compare_consensus_data [] [] = 100`, and whenever the
union of the two element sets is nonempty the result is the Jaccard ratio
`|intersection| / |union|`, which is at most `1`. -/
theorem c5_jaccard_equality {α : Type} [DecidableEq α] (x y : List α) :
    (x ≠ [] → compare_consensus_data x x = 1) ∧
    compare_consensus_data ([] : List α) [] = 100 ∧
    ((x.toFinset ∪ y.toFinset).Nonempty →
      compare_consensus_data x y =
        ((x.toFinset ∩ y.toFinset).card : ℚ) / ((x.toFinset ∪ y.toFinset).card : ℚ) ∧
      compare_consensus_data x y ≤ 1) := by
  refine ⟨compare_self_nonempty x, ?_, ?_⟩
  · unfold compare_consensus_data
    simp
  · intro hu
    have hne : x.toFinset ∪ y.toFinset ≠ ∅ := Finset.nonempty_iff_ne_empty.mp hu
    constructor
    · unfold compare_consensus_data
      rw [if_neg hne]
    · unfold compare_consensus_data
      rw [if_neg hne]
      have hcard : (0 : ℚ) < ((x.toFinset ∪ y.toFinset).card : ℚ) := by
        exact_mod_cast Finset.card_pos.mpr hu
      rw [div_le_one hcard]
      exact_mod_cast Finset.card_le_card Finset.inter_subset_union

theorem c5_jaccard_equality_witness :
    compare_consensus_data [((1 : Int), (1 : Int))] [((1 : Int), (1 : Int))] = 1 :=
  (c5_jaccard_equality [((1 : Int), (1 : Int))] []).1 (by decide)

/-! ## C10 -/

/-- Claim C10: `is_peer_staked` returns exactly the boolean stored under
`"result"` when that value is a genuine Python boolean, and `false` for a
missing or non-boolean `"result"` value (total, hence never raising). -/
theorem c10_is_peer_staked_result (reply : List (String × PyVal)) :
    (∀ b : Bool, reply.lookup "result" = some (PyVal.pybool b) →
      is_peer_staked reply = b) ∧
    ((∀ b : Bool, reply.lookup "result" ≠ some (PyVal.pybool b)) →
      is_peer_staked reply = false) := by
  constructor
  · intro b hb
    unfold is_peer_staked
    rw [hb]
  · intro hnb
    unfold is_peer_staked
    cases hl : reply.lookup "result" with
    | none => rfl
    | some v =>
      cases v with
      | pybool b => exact absurd hl (hnb b)
      | pyint n => rfl
      | pystr s => rfl
      | pynone => rfl

theorem c10_is_peer_staked_result_witness :
    is_peer_staked [("result", PyVal.pyint 1)] = false :=
  (c10_is_peer_staked_result [("result", PyVal.pyint 1)]).2 (by decide)

/-! ## C6 -/

theorem pos_step_preserves_disjoint (oracle : Nat → Bool) (s : PoSState)
    (p : Nat) (now : ℚ) (h : PoSDisjoint s) :
    PoSDisjoint (proof_of_stake s oracle p now).2.1 := by
  unfold proof_of_stake
  dsimp only
  split
  · exact h
  · split
    · exact h
    · split
      · intro q
        unfold update_peer_id_success
        by_cases hq : q = p
        · simp [hq]
        · simpa [hq] using h q
      · intro q
        unfold update_peer_id_fail
        by_cases hq : q = p <;> simp [hq, h q]

theorem pos_run_preserves_disjoint (oracle : Nat → Bool) (s : PoSState)
    (calls : List (Nat × ℚ)) (h : PoSDisjoint s) :
    PoSDisjoint (posRun oracle s calls) := by
  induction calls generalizing s with
  | nil => exact h
  | cons c rest ih =>
    exact ih _ (pos_step_preserves_disjoint oracle s c.1 c.2 h)

/-- Claim C6: (a) within 300 s of a recorded failure the peer is rejected
with no blockchain query; (b) within 300 s of a recorded success the peer is
accepted with no blockchain query; (c) recording a success evicts the peer
from the failure cache and recording a failure evicts it from the success
cache; (d) consequently, starting from the empty caches, no sequence of
`proof_of_stake` calls can leave any peer in both caches at once. -/
theorem c6_pos_cache_cooldown (oracle : Nat → Bool) (s : PoSState)
    (p : Nat) (t now : ℚ) (ht : t ≠ 0) :
    (s.fail p = some t → now - t < 300 →
      proof_of_stake s oracle p now = (false, s, false)) ∧
    (s.fail p = none → s.success p = some t → now - t < 300 →
      proof_of_stake s oracle p now = (true, s, false)) ∧
    ((update_peer_id_success s p now).fail p = none ∧
      (update_peer_id_fail s p now).success p = none) ∧
    (∀ calls : List (Nat × ℚ),
      PoSDisjoint (posRun oracle PoSState.initial calls)) := by
  refine ⟨?_, ?_, ?_, ?_⟩
  · intro hf hlt
    unfold proof_of_stake
    rw [if_pos]
    constructor
    · unfold get_peer_id_last_fail
      rw [hf]
      exact ht
    · unfold get_peer_id_last_fail
      rw [hf]
      exact hlt
  · intro hf hs hlt
    unfold proof_of_stake
    rw [if_neg, if_pos]
    · constructor
      · unfold get_peer_id_last_success
        rw [hs]
        exact ht
      · unfold get_peer_id_last_success
        rw [hs]
        exact hlt
    · unfold get_peer_id_last_fail
      rw [hf]
      simp
  · constructor
    · unfold update_peer_id_success
      simp
    · unfold update_peer_id_fail
      simp
  · intro calls
    refine pos_run_preserves_disjoint oracle _ calls ?_
    intro q
    left
    rfl

/-! ## C2 and C9 -/

/-! ## C4 -/

theorem member_peerScores (results : Results) (v : String) (vr : List MathDataM)
    (hvr : (v, vr) ∈ results) (m : MathDataM) (hm : m ∈ vr) :
    m.score ∈ peerScores results m.peer_id := by
  unfold peerScores
  refine List.mem_map.mpr ⟨m, ?_, rfl⟩
  refine List.mem_flatMap.mpr ⟨(v, vr), hvr, ?_⟩
  exact List.mem_filter.mpr ⟨hm, by simp⟩

theorem errorSum_eq_sum (results : Results) (vr : List MathDataM)
    (h : ∀ m ∈ vr, peerScores results m.peer_id ≠ []) :
    errorSum results vr =
      (vr.map (fun m => (m.score - peerMean results m.peer_id) ^ 2)).sum := by
  have H : ∀ (l : List MathDataM), (∀ m ∈ l, peerScores results m.peer_id ≠ []) →
      ∀ init : ℚ,
      l.foldl
        (fun acc m =>
          if peerScores results m.peer_id ≠ [] then
            acc + (m.score - peerMean results m.peer_id) ^ 2
          else acc) init =
        init + (l.map (fun m => (m.score - peerMean results m.peer_id) ^ 2)).sum := by
    intro l
    induction l with
    | nil => intro _ init; simp
    | cons a t ih =>
      intro hl init
      simp only [List.foldl_cons, List.map_cons, List.sum_cons]
      rw [if_pos (hl a (List.mem_cons_self a t))]
      rw [ih (fun m hm => hl m (List.mem_cons_of_mem a hm))]
      ring
  unfold errorSum
  rw [H vr h 0]
  ring

theorem sum_of_const (l : List ℚ) (c : ℚ) (h : ∀ x ∈ l, x = c) :
    l.sum = c * (l.length : ℚ) := by
  induction l with
  | nil => simp
  | cons a t ih =>
    simp only [List.sum_cons, List.length_cons]
    rw [h a (List.mem_cons_self a t), ih (fun x hx => h x (List.mem_cons_of_mem a hx))]
    push_cast
    ring

/-- Claim C4: in `verify_and_score_peers`,
(a) each verifier's error is the sum of squared deviations of its reported
scores from the per-prover means; (b) each verifier's score is
`max(1 − error / (max_error + 1e-8), 0)`; (c) the published integer is the
truncation of `score × 10¹⁸` (truncation = floor, the scores being
nonnegative); and (d) when every verifier reports the identical score `c`
for a prover (and someone reports it), that prover's mean is exactly `c`. -/
theorem c4_score_aggregation (results : Results) :
    (∀ v e, (v, e) ∈ validator_errors results →
      ∃ vr, (v, vr) ∈ results ∧
        e = (vr.map (fun m => (m.score - peerMean results m.peer_id) ^ 2)).sum) ∧
    (∀ v s, (v, s) ∈ validator_scores results →
      ∃ e, (v, e) ∈ validator_errors results ∧
        s = max (1 - e / (max_error results + 1 / 100000000)) 0) ∧
    (∀ v z, (v, z) ∈ consensus_scores results →
      ∃ s, (v, s) ∈ validator_scores results ∧ 0 ≤ s ∧ z = ⌊s * 10 ^ 18⌋) ∧
    (∀ (p : String) (c : ℚ),
      (∀ vr ∈ results, ∀ m ∈ vr.2, m.peer_id = p → m.score = c) →
      (∃ vr ∈ results, ∃ m ∈ vr.2, m.peer_id = p) →
      peerMean results p = c) := by
  refine ⟨?_, ?_, ?_, ?_⟩
  · intro v e hmem
    unfold validator_errors at hmem
    obtain ⟨pair, hpair, heq⟩ := List.mem_map.mp hmem
    obtain ⟨hv, he⟩ := Prod.mk.injEq .. ▸ heq
    refine ⟨pair.2, by rw [← hv]; exact hpair, ?_⟩
    rw [← he]
    refine errorSum_eq_sum results pair.2 (fun m hm => ?_)
    exact List.ne_nil_of_mem (member_peerScores results pair.1 pair.2 hpair m hm)
  · intro v s hmem
    unfold validator_scores at hmem
    obtain ⟨pair, hpair, heq⟩ := List.mem_map.mp hmem
    obtain ⟨hv, hs⟩ := Prod.mk.injEq .. ▸ heq
    refine ⟨pair.2, by rw [← hv]; exact hpair, ?_⟩
    rw [← hs]
    rfl
  · intro v z hmem
    unfold consensus_scores at hmem
    obtain ⟨pair, hpair, heq⟩ := List.mem_map.mp hmem
    obtain ⟨hv, hz⟩ := Prod.mk.injEq .. ▸ heq
    have hnn : 0 ≤ pair.2 := by
      unfold validator_scores at hpair
      obtain ⟨q, _, hq⟩ := List.mem_map.mp hpair
      obtain ⟨_, hs2⟩ := Prod.mk.injEq .. ▸ hq
      rw [← hs2]
      exact le_max_right _ 0
    refine ⟨pair.2, by rw [← hv]; exact hpair, hnn, ?_⟩
    rw [← hz]
    unfold pyInt
    rw [if_pos (by positivity)]
  · intro p c hall hex
    obtain ⟨vr, hvr, m, hm, hp⟩ := hex
    have hne : peerScores results p ≠ [] := by
      have := member_peerScores results vr.1 vr.2 (by simpa using hvr) m hm
      rw [hp] at this
      exact List.ne_nil_of_mem this
    have hconst : ∀ x ∈ peerScores results p, x = c := by
      intro x hx
      unfold peerScores at hx
      obtain ⟨m', hm', hxe⟩ := List.mem_map.mp hx
      obtain ⟨pair', hpair', hfil⟩ := List.mem_flatMap.mp hm'
      obtain ⟨hmem', hpid⟩ := List.mem_filter.mp hfil
      rw [← hxe]
      exact hall pair' hpair' m' hmem' (by simpa using hpid)
    unfold peerMean
    rw [sum_of_const _ c hconst]
    have hlen : ((peerScores results p).length : ℚ) ≠ 0 := by
      have hp0 : 0 < (peerScores results p).length := List.length_pos.mpr hne
      exact_mod_cast hp0.ne'
    field_simp

theorem c4_score_aggregation_witness :
    peerMean [("v1", [⟨"p", 1⟩]), ("v2", [⟨"p", 1⟩])] "p" = 1 :=
  (c4_score_aggregation [("v1", [⟨"p", 1⟩]), ("v2", [⟨"p", 1⟩])]).2.2.2 "p" 1
    (by decide) (by decide)

/-! ## C1: scanning lemmas -/

theorem findClose_some (t pre post : Bytes) (h : findClose t = some (pre, post)) :
    t = pre ++ 93 :: post ∧ 93 ∉ pre ∧ 10 ∉ pre := by
  induction t generalizing pre post with
  | nil => simp [findClose] at h
  | cons c u ih =>
    unfold findClose at h
    by_cases h93 : c = 93
    · rw [if_pos h93] at h
      simp only [Option.some.injEq, Prod.mk.injEq] at h
      obtain ⟨h1, h2⟩ := h
      subst h1
      subst h2
      subst h93
      simp
    · rw [if_neg h93] at h
      by_cases h10 : c = 10
      · rw [if_pos h10] at h
        simp at h
      · rw [if_neg h10] at h
        cases hr : findClose u with
        | none => rw [hr] at h; simp at h
        | some pq =>
          rw [hr] at h
          simp only [Option.some.injEq, Prod.mk.injEq] at h
          obtain ⟨h1, h2⟩ := h
          obtain ⟨ht, h93u, h10u⟩ := ih pq.1 pq.2 (by rw [hr])
          subst h2
          rw [← h1]
          refine ⟨by rw [ht]; simp, ?_, ?_⟩
          · simp only [List.mem_cons, not_or]
            exact ⟨fun hx => h93 hx.symm, h93u⟩
          · simp only [List.mem_cons, not_or]
            exact ⟨fun hx => h10 hx.symm, h10u⟩

theorem findClose_append (pre post : Bytes) (h93 : 93 ∉ pre) (h10 : 10 ∉ pre) :
    findClose (pre ++ 93 :: post) = some (pre, post) := by
  induction pre with
  | nil => simp [findClose]
  | cons c u ih =>
    have hc93 : c ≠ 93 := fun hc => h93 (by simp [hc])
    have hc10 : c ≠ 10 := fun hc => h10 (by simp [hc])
    unfold findClose
    rw [List.cons_append]
    dsimp only
    rw [if_neg hc93, if_neg hc10]
    rw [ih (fun hm => h93 (List.mem_cons_of_mem c hm))
      (fun hm => h10 (List.mem_cons_of_mem c hm))]

theorem findClose_none_of_no93 (t : Bytes) (h : 93 ∉ t) : findClose t = none := by
  induction t with
  | nil => rfl
  | cons c u ih =>
    have hc : c ≠ 93 := fun hc => h (by simp [hc])
    unfold findClose
    try dsimp only
    rw [if_neg hc]
    by_cases h10 : c = 10
    · rw [if_pos h10]
    · rw [if_neg h10, ih (fun hm => h (List.mem_cons_of_mem c hm))]

theorem findClose_none_of_ten (pre post : Bytes) (h93 : 93 ∉ pre) :
    findClose (pre ++ 10 :: post) = none := by
  induction pre with
  | nil => simp [findClose]
  | cons c u ih =>
    have hc93 : c ≠ 93 := fun hc => h93 (by simp [hc])
    unfold findClose
    rw [List.cons_append]
    dsimp only
    rw [if_neg hc93]
    by_cases h10 : c = 10
    · rw [if_pos h10]
    · rw [if_neg h10, ih (fun hm => h93 (List.mem_cons_of_mem c hm))]

theorem captureAfterTag_some (s cap rem : Bytes)
    (h : captureAfterTag s = some (cap, rem)) :
    s = cap ++ 93 :: rem ∧ cap ≠ [] := by
  cases s with
  | nil => simp [captureAfterTag] at h
  | cons c t =>
    unfold captureAfterTag at h
    dsimp only at h
    by_cases h10 : c = 10
    · rw [if_pos h10] at h; simp at h
    · rw [if_neg h10] at h
      cases hr : findClose t with
      | none => rw [hr] at h; simp at h
      | some pq =>
        rw [hr] at h
        simp only [Option.some.injEq, Prod.mk.injEq] at h
        obtain ⟨h1, h2⟩ := h
        obtain ⟨ht, _, _⟩ := findClose_some t pq.1 pq.2 (by rw [hr])
        subst h2
        rw [← h1]
        exact ⟨by rw [ht]; simp, by simp⟩

theorem captureAfterTag_build (cap rem : Bytes) (hne : cap ≠ [])
    (h10 : 10 ∉ cap) (h93 : 93 ∉ cap.tail) :
    captureAfterTag (cap ++ 93 :: rem) = some (cap, rem) := by
  cases cap with
  | nil => exact absurd rfl hne
  | cons c t =>
    have hc10 : c ≠ 10 := fun hc => h10 (by simp [hc])
    unfold captureAfterTag
    rw [List.cons_append]
    dsimp only
    rw [if_neg hc10]
    rw [findClose_append t rem (by simpa using h93)
      (fun hm => h10 (List.mem_cons_of_mem c hm))]

theorem captureAfterTag_none_of_no93 (s : Bytes) (h : 93 ∉ s) :
    captureAfterTag s = none := by
  cases s with
  | nil => rfl
  | cons c t =>
    unfold captureAfterTag
    dsimp only
    by_cases h10 : c = 10
    · rw [if_pos h10]
    · rw [if_neg h10, findClose_none_of_no93 t (fun hm => h (List.mem_cons_of_mem c hm))]

theorem captureAfterTag_len (s cap rem : Bytes)
    (h : captureAfterTag s = some (cap, rem)) :
    s.length = cap.length + 1 + rem.length := by
  obtain ⟨hs, _⟩ := captureAfterTag_some s cap rem h
  rw [hs]
  simp
  omega

theorem tryMatch_some (tag s cap rem : Bytes)
    (h : tryMatch tag s = some (cap, rem)) :
    s = tag ++ cap ++ 93 :: rem ∧ cap ≠ [] := by
  unfold tryMatch at h
  by_cases hp : tag.isPrefixOf s
  · rw [if_pos hp] at h
    obtain ⟨u, hu⟩ := (List.isPrefixOf_iff_prefix.mp hp)
    obtain ⟨hd, hne⟩ := captureAfterTag_some _ cap rem h
    have hdrop : s.drop tag.length = u := by
      rw [← hu, List.drop_left]
    rw [hdrop] at hd
    constructor
    · rw [← hu, hd]
      simp
    · exact hne
  · rw [if_neg hp] at h
    simp at h

theorem tryMatch_rem_len (tag s cap rem : Bytes)
    (h : tryMatch tag s = some (cap, rem)) :
    rem.length + 2 ≤ s.length := by
  obtain ⟨hs, hne⟩ := tryMatch_some tag s cap rem h
  have : 1 ≤ cap.length := by
    cases cap with
    | nil => exact absurd rfl hne
    | cons a t => simp
  rw [hs]
  simp
  omega

theorem tryMatch_build (tag cap rem : Bytes) (hne : cap ≠ [])
    (h10 : 10 ∉ cap) (h93 : 93 ∉ cap.tail) :
    tryMatch tag (tag ++ cap ++ 93 :: rem) = some (cap, rem) := by
  unfold tryMatch
  rw [if_pos]
  · rw [List.append_assoc, List.drop_left]
    exact captureAfterTag_build cap rem hne h10 h93
  · exact List.isPrefixOf_iff_prefix.mpr (by rw [List.append_assoc]; exact List.prefix_append _ _)

theorem tryMatch_none_head (h : Nat) (tb : Bytes) (c : Nat) (t : Bytes)
    (hc : c ≠ h) : tryMatch (h :: tb) (c :: t) = none := by
  unfold tryMatch
  rw [if_neg]
  intro hp
  obtain ⟨u, hu⟩ := List.isPrefixOf_iff_prefix.mp hp
  rw [List.cons_append] at hu
  exact hc (List.cons.injEq .. ▸ hu).1.symm

theorem findallF_succ (tag : Bytes) (fuel : Nat) (s : Bytes) :
    findallF tag (fuel + 1) s =
      match tryMatch tag s with
      | some (cap, rem) => cap :: findallF tag fuel rem
      | none =>
        match s with
        | [] => []
        | _ :: t => findallF tag fuel t := rfl

theorem stripTagsF_succ (tag : Bytes) (fuel : Nat) (s : Bytes) :
    stripTagsF tag (fuel + 1) s =
      match tryMatch tag s with
      | some (_, rem) => stripTagsF tag fuel rem
      | none =>
        match s with
        | [] => []
        | c :: t => c :: stripTagsF tag fuel t := rfl

theorem findallF_nil (tag : Bytes) (fuel : Nat) : findallF tag fuel [] = [] := by
  cases fuel with
  | zero => rfl
  | succ n =>
    rw [findallF_succ]
    cases htm : tryMatch tag [] with
    | none => rfl
    | some pr =>
      obtain ⟨hs, _⟩ := tryMatch_some tag [] pr.1 pr.2 (by rw [htm])
      exact absurd hs.symm (by simp)

theorem findallF_fuel (tag : Bytes) : ∀ (f1 : Nat) (s : Bytes) (f2 : Nat),
    s.length ≤ f1 → s.length ≤ f2 → findallF tag f1 s = findallF tag f2 s := by
  intro f1
  induction f1 with
  | zero =>
    intro s f2 h1 _
    have hs : s = [] := List.eq_nil_of_length_eq_zero (Nat.le_zero.mp h1)
    subst hs
    rw [findallF_nil, findallF_nil]
  | succ n ih =>
    intro s f2 h1 h2
    cases s with
    | nil => rw [findallF_nil, findallF_nil]
    | cons c t =>
      cases f2 with
      | zero => simp at h2
      | succ m =>
        rw [findallF_succ, findallF_succ]
        cases htm : tryMatch tag (c :: t) with
        | some pr =>
          obtain ⟨cap, rem⟩ := pr
          have hrem := tryMatch_rem_len tag (c :: t) cap rem (by rw [htm])
          simp only [List.length_cons] at h1 h2 hrem
          dsimp only
          rw [ih rem m (by omega) (by omega)]
        | none =>
          dsimp only
          simp only [List.length_cons] at h1 h2
          exact ih t m (by omega) (by omega)

theorem findall_match (tag s cap rem : Bytes)
    (h : tryMatch tag s = some (cap, rem)) :
    findall tag s = cap :: findall tag rem := by
  have hrem := tryMatch_rem_len tag s cap rem h
  unfold findall
  cases hL : s.length with
  | zero => omega
  | succ n =>
    have step : findallF tag (n + 1) s = cap :: findallF tag n rem := by
      rw [findallF_succ, h]
    rw [step]
    rw [findallF_fuel tag n rem rem.length (by omega) (by omega)]

theorem findall_skip (tag : Bytes) (c : Nat) (t : Bytes)
    (h : tryMatch tag (c :: t) = none) : findall tag (c :: t) = findall tag t := by
  unfold findall
  show findallF tag (t.length + 1) (c :: t) = findallF tag t.length t
  rw [findallF_succ, h]

theorem findall_nil (tag : Bytes) : findall tag [] = [] := findallF_nil tag 0

theorem stripTagsF_nil (tag : Bytes) (fuel : Nat) : stripTagsF tag fuel [] = [] := by
  cases fuel with
  | zero => rfl
  | succ n =>
    rw [stripTagsF_succ]
    cases htm : tryMatch tag [] with
    | none => rfl
    | some pr =>
      obtain ⟨hs, _⟩ := tryMatch_some tag [] pr.1 pr.2 (by rw [htm])
      exact absurd hs.symm (by simp)

theorem stripTagsF_fuel (tag : Bytes) : ∀ (f1 : Nat) (s : Bytes) (f2 : Nat),
    s.length ≤ f1 → s.length ≤ f2 → stripTagsF tag f1 s = stripTagsF tag f2 s := by
  intro f1
  induction f1 with
  | zero =>
    intro s f2 h1 _
    have hs : s = [] := List.eq_nil_of_length_eq_zero (Nat.le_zero.mp h1)
    subst hs
    rw [stripTagsF_nil, stripTagsF_nil]
  | succ n ih =>
    intro s f2 h1 h2
    cases s with
    | nil => rw [stripTagsF_nil, stripTagsF_nil]
    | cons c t =>
      cases f2 with
      | zero => simp at h2
      | succ m =>
        rw [stripTagsF_succ, stripTagsF_succ]
        cases htm : tryMatch tag (c :: t) with
        | some pr =>
          obtain ⟨cap, rem⟩ := pr
          have hrem := tryMatch_rem_len tag (c :: t) cap rem (by rw [htm])
          simp only [List.length_cons] at h1 h2 hrem
          dsimp only
          rw [ih rem m (by omega) (by omega)]
        | none =>
          dsimp only
          simp only [List.length_cons] at h1 h2
          rw [ih t m (by omega) (by omega)]

theorem stripTags_match (tag s cap rem : Bytes)
    (h : tryMatch tag s = some (cap, rem)) :
    stripTags tag s = stripTags tag rem := by
  have hrem := tryMatch_rem_len tag s cap rem h
  unfold stripTags
  cases hL : s.length with
  | zero => omega
  | succ n =>
    have step : stripTagsF tag (n + 1) s = stripTagsF tag n rem := by
      rw [stripTagsF_succ, h]
    rw [step]
    rw [stripTagsF_fuel tag n rem rem.length (by omega) (by omega)]

theorem stripTags_skip (tag : Bytes) (c : Nat) (t : Bytes)
    (h : tryMatch tag (c :: t) = none) :
    stripTags tag (c :: t) = c :: stripTags tag t := by
  unfold stripTags
  show stripTagsF tag (t.length + 1) (c :: t) = c :: stripTagsF tag t.length t
  rw [stripTagsF_succ, h]

theorem stripTags_nil (tag : Bytes) : stripTags tag [] = [] := stripTagsF_nil tag 0

theorem findall_skip_block (tb A r : Bytes) (hA : 91 ∉ A) :
    findall (91 :: tb) (A ++ r) = findall (91 :: tb) r := by
  induction A with
  | nil => rfl
  | cons c u ih =>
    have hc : c ≠ 91 := fun hcc => hA (by simp [hcc])
    rw [List.cons_append, findall_skip _ _ _ (tryMatch_none_head 91 tb c _ hc)]
    exact ih (fun hm => hA (List.mem_cons_of_mem c hm))

theorem stripTags_skip_block (tb A r : Bytes) (hA : 91 ∉ A) :
    stripTags (91 :: tb) (A ++ r) = A ++ stripTags (91 :: tb) r := by
  induction A with
  | nil => rfl
  | cons c u ih =>
    have hc : c ≠ 91 := fun hcc => hA (by simp [hcc])
    rw [List.cons_append, stripTags_skip _ _ _ (tryMatch_none_head 91 tb c _ hc)]
    rw [ih (fun hm => hA (List.mem_cons_of_mem c hm))]
    rfl

theorem findall_match_block (tag cap B : Bytes) (hne : cap ≠ [])
    (h10 : 10 ∉ cap) (h93 : 93 ∉ cap.tail) :
    findall tag (tag ++ cap ++ 93 :: B) = cap :: findall tag B :=
  findall_match _ _ _ _ (tryMatch_build tag cap B hne h10 h93)

theorem stripTags_match_block (tag cap B : Bytes) (hne : cap ≠ [])
    (h10 : 10 ∉ cap) (h93 : 93 ∉ cap.tail) :
    stripTags tag (tag ++ cap ++ 93 :: B) = stripTags tag B :=
  stripTags_match _ _ _ _ (tryMatch_build tag cap B hne h10 h93)

theorem findall_no91 (tb s : Bytes) (h : 91 ∉ s) : findall (91 :: tb) s = [] := by
  have := findall_skip_block tb s [] h
  simpa [findall_nil] using this

theorem stripTags_no91 (tb s : Bytes) (h : 91 ∉ s) : stripTags (91 :: tb) s = s := by
  have := stripTags_skip_block tb s [] h
  simpa [stripTags_nil] using this

theorem close_unique (Q cap rem : Bytes) (hQ : 93 ∉ Q)
    (h : Q ++ [93] = cap ++ 93 :: rem) : cap = Q ∧ rem = [] := by
  induction Q generalizing cap with
  | nil =>
    cases cap with
    | nil => simpa using h
    | cons c u =>
      simp only [List.nil_append, List.cons_append, List.cons.injEq] at h
      obtain ⟨_, h2⟩ := h
      have hlen := congrArg List.length h2
      simp only [List.length_nil, List.length_append, List.length_cons] at hlen
      omega
  | cons q Q' ih =>
    cases cap with
    | nil =>
      simp only [List.cons_append, List.nil_append, List.cons.injEq] at h
      exact absurd h.1 (fun hx => hQ (by simp [hx.symm]))
    | cons c u =>
      simp only [List.cons_append, List.cons.injEq] at h
      obtain ⟨hc, hrest⟩ := h
      obtain ⟨hu, hrem⟩ := ih u (fun hm => hQ (List.mem_cons_of_mem q hm)) hrest
      exact ⟨by rw [hc, hu], hrem⟩

theorem split93 (P Q cap rem : Bytes) (hQ : 93 ∉ Q)
    (h : P ++ (Q ++ [93]) = cap ++ 93 :: rem) :
    (∃ P₁ P₂, P = P₁ ++ 93 :: P₂ ∧ cap = P₁ ∧ rem = P₂ ++ (Q ++ [93])) ∨
      (cap = P ++ Q ∧ rem = []) := by
  induction P generalizing cap with
  | nil =>
    right
    simp only [List.nil_append] at h
    obtain ⟨hc, hr⟩ := close_unique Q cap rem hQ h
    exact ⟨by rw [hc]; rfl, hr⟩
  | cons p P' ih =>
    cases cap with
    | nil =>
      simp only [List.cons_append, List.nil_append, List.cons.injEq] at h
      obtain ⟨hp, hrest⟩ := h
      exact Or.inl ⟨[], P', by rw [hp]; simp, rfl, by rw [hrest]⟩
    | cons c u =>
      simp only [List.cons_append, List.cons.injEq] at h
      obtain ⟨hc, hrest⟩ := h
      rcases ih u hrest with ⟨P₁, P₂, hP, hcap, hrem⟩ | ⟨hcap, hrem⟩
      · exact Or.inl ⟨p :: P₁, P₂, by rw [List.cons_append, ← hP],
          by rw [hc, hcap], hrem⟩
      · exact Or.inr ⟨by rw [List.cons_append, hc, hcap], hrem⟩

/-! ## C1: injectivity and alphabet lemmas for the modelled cryptography -/

theorem repl1_chunk_inj (n : Nat) : ∀ (m : Nat) (u v : Bytes),
    List.replicate n 1 ++ 0 :: u = List.replicate m 1 ++ 0 :: v →
    n = m ∧ u = v := by
  induction n with
  | zero =>
    intro m u v h
    cases m with
    | zero => simpa using h
    | succ m' => simp [List.replicate_succ] at h
  | succ n' ih =>
    intro m u v h
    cases m with
    | zero => simp [List.replicate_succ] at h
    | succ m' =>
      simp only [List.replicate_succ, List.cons_append, List.cons.injEq, true_and] at h
      obtain ⟨hn, hu⟩ := ih m' u v h
      exact ⟨by omega, hu⟩

theorem chunk_append_inj (a b x y : Bytes)
    (h : encodeChunk a ++ x = encodeChunk b ++ y) : a = b ∧ x = y := by
  unfold encodeChunk at h
  rw [List.append_assoc, List.append_assoc, List.cons_append, List.cons_append] at h
  obtain ⟨hn, hu⟩ := repl1_chunk_inj a.length b.length (a ++ x) (b ++ y) h
  exact List.append_inj hu hn

theorem chunk_inj (a b : Bytes) (h : encodeChunk a = encodeChunk b) : a = b :=
  (chunk_append_inj a b [] [] (by simpa using h)).1

theorem intEnc_inj (n m : Int) (h : intEnc n = intEnc m) : n = m := by
  unfold intEnc at h
  by_cases hn : 0 ≤ n <;> by_cases hm : 0 ≤ m <;> simp [hn, hm] at h <;> omega

theorem ratEnc_inj (p q : ℚ) (h : ratEnc p = ratEnc q) : p = q := by
  unfold ratEnc intEnc at h
  by_cases hp : 0 ≤ p.num <;> by_cases hq : 0 ≤ q.num <;> simp [hp, hq] at h
  · exact Rat.ext (by omega) (by exact_mod_cast h.2)
  · exact Rat.ext (by omega) (by exact_mod_cast h.2)

theorem safeBody_cons (b : Nat) (t : Bytes) :
    safeBody (b :: t) = 65 :: (List.replicate b 66 ++ safeBody t) := by
  unfold safeBody
  rw [List.flatMap_cons, List.cons_append]

theorem mem_safeBody (e : Bytes) (x : Nat) (h : x ∈ safeBody e) :
    x = 65 ∨ x = 66 := by
  unfold safeBody at h
  obtain ⟨b, _, hx⟩ := List.mem_flatMap.mp h
  rcases List.mem_cons.mp hx with h1 | h2
  · exact Or.inl h1
  · exact Or.inr (List.eq_of_mem_replicate h2)

theorem safeBody_not_head66 (e : Bytes) (r : Bytes) : safeBody e ≠ 66 :: r := by
  cases e with
  | nil => simp [safeBody]
  | cons b t =>
    rw [safeBody_cons]
    intro h
    exact absurd (List.cons.injEq .. ▸ h).1 (by omega)

theorem repl66_cancel (e1 e2 : Bytes) : ∀ (b1 b2 : Nat),
    List.replicate b1 66 ++ safeBody e1 = List.replicate b2 66 ++ safeBody e2 →
    b1 = b2 ∧ safeBody e1 = safeBody e2 := by
  intro b1
  induction b1 generalizing e1 with
  | zero =>
    intro b2 h
    cases b2 with
    | zero => simpa using h
    | succ b2' =>
      simp only [List.replicate_zero, List.nil_append, List.replicate_succ,
        List.cons_append] at h
      exact absurd h (safeBody_not_head66 e1 _)
  | succ b1' ih =>
    intro b2 h
    cases b2 with
    | zero =>
      simp only [List.replicate_zero, List.nil_append, List.replicate_succ,
        List.cons_append] at h
      exact absurd h.symm (safeBody_not_head66 e2 _)
    | succ b2' =>
      simp only [List.replicate_succ, List.cons_append, List.cons.injEq, true_and] at h
      obtain ⟨hb, hs⟩ := ih e1 b2' h
      exact ⟨by omega, hs⟩

theorem safeBody_inj (e1 : Bytes) : ∀ (e2 : Bytes),
    safeBody e1 = safeBody e2 → e1 = e2 := by
  induction e1 with
  | nil =>
    intro e2 h
    cases e2 with
    | nil => rfl
    | cons c u => rw [safeBody_cons] at h; simp [safeBody] at h
  | cons b t ih =>
    intro e2 h
    cases e2 with
    | nil => rw [safeBody_cons] at h; simp [safeBody] at h
    | cons c u =>
      rw [safeBody_cons, safeBody_cons] at h
      have h' := (List.cons.injEq .. ▸ h).2
      obtain ⟨hb, hs⟩ := repl66_cancel t u b c h'
      rw [hb, ih u hs]

theorem mem_idealSig (pk m : Bytes) (x : Nat) (h : x ∈ idealSig pk m) :
    x = 65 ∨ x = 66 ∨ x = 67 := by
  unfold idealSig at h
  rcases List.mem_append.mp h with h1 | h2
  · rcases mem_safeBody _ _ h1 with h | h
    · exact Or.inl h
    · exact Or.inr (Or.inl h)
  · exact Or.inr (Or.inr (by simpa using h2))

theorem idealSig_ne_nil (pk m : Bytes) : idealSig pk m ≠ [] := by
  unfold idealSig
  simp

theorem no91_idealSig (pk m : Bytes) : 91 ∉ idealSig pk m := by
  intro h
  rcases mem_idealSig pk m 91 h with h | h | h <;> omega

theorem no93_idealSig (pk m : Bytes) : 93 ∉ idealSig pk m := by
  intro h
  rcases mem_idealSig pk m 93 h with h | h | h <;> omega

theorem no10_idealSig (pk m : Bytes) : 10 ∉ idealSig pk m := by
  intro h
  rcases mem_idealSig pk m 10 h with h | h | h <;> omega

theorem no115_idealSig (pk m : Bytes) : 115 ∉ idealSig pk m := by
  intro h
  rcases mem_idealSig pk m 115 h with h | h | h <;> omega

theorem mem67_idealSig (pk m : Bytes) : 67 ∈ idealSig pk m := by
  unfold idealSig
  simp

theorem not67_safeBody (e : Bytes) : 67 ∉ safeBody e := by
  intro h
  rcases mem_safeBody _ _ h with h | h <;> omega

theorem idealSig_inj (pk1 m1 pk2 m2 : Bytes)
    (h : idealSig pk1 m1 = idealSig pk2 m2) : pk1 = pk2 ∧ m1 = m2 := by
  unfold idealSig at h
  have hb := List.append_cancel_right h
  exact chunk_append_inj _ _ _ _ (safeBody_inj _ _ hb)

theorem idealSig_take_ne (pk m : Bytes) (j : Nat)
    (hj : j < (idealSig pk m).length) (pk2 m2 : Bytes) :
    (idealSig pk m).take j ≠ idealSig pk2 m2 := by
  intro h
  have h67 : 67 ∈ (idealSig pk m).take j := h ▸ mem67_idealSig pk2 m2
  unfold idealSig at h67 hj
  rw [List.length_append, List.length_singleton] at hj
  rw [List.take_append_of_le_length (by omega)] at h67
  exact not67_safeBody _ (List.mem_of_mem_take h67)

theorem pubKey_inj (a b : Nat) (h : pubKey a = pubKey b) : a = b := by
  have := congrArg List.length h
  simpa [pubKey] using this

theorem serializeRecord_inj (r1 r2 : DHTRec)
    (h : serializeRecord r1 = serializeRecord r2) : r1 = r2 := by
  unfold serializeRecord at h
  rw [List.append_assoc, List.append_assoc, List.append_assoc, List.append_assoc] at h
  obtain ⟨hkey, h2⟩ := chunk_append_inj _ _ _ _ h
  obtain ⟨hsub, h3⟩ := chunk_append_inj _ _ _ _ h2
  obtain ⟨hval, h4⟩ := chunk_append_inj _ _ _ _ h3
  have hexp := ratEnc_inj _ _ (chunk_inj _ _ h4)
  cases r1
  cases r2
  simp_all

/-! ## C1: the validator on signed and tampered records -/

theorem sigTagHead_eq : sigTagHead = 91 :: sigTagBody := rfl

theorem ownerTagHead_eq : ownerTagHead = 91 :: ownerTagBody := rfl

theorem dedup_const {α : Type} [DecidableEq α] (a : α) : ∀ (l : List α),
    l ≠ [] → (∀ x ∈ l, x = a) → l.dedup = [a] := by
  intro l
  induction l with
  | nil => intro h _; exact absurd rfl h
  | cons c t ih =>
    intro _ hall
    have hc : c = a := hall c (List.mem_cons_self c t)
    cases t with
    | nil => simp [hc]
    | cons d u =>
      have ht := ih (by simp) (fun x hx => hall x (List.mem_cons_of_mem c hx))
      rw [List.dedup_cons_of_mem, ht]
      have hd : d = a := hall d (by simp)
      simp [hc, hd]

theorem validateSig_protected (r : DHTRec) (pk : Bytes)
    (hne : findall ownerTagHead r.key ++ findall ownerTagHead r.subkey ≠ [])
    (hall : ∀ c ∈ findall ownerTagHead r.key ++ findall ownerTagHead r.subkey, c = pk) :
    validateSig r =
      (match findall sigTagHead r.value with
       | [s] => verifyBytes pk (serializeRecord { r with value := strip_value r }) s
       | _ => false) := by
  unfold validateSig
  cases hcaps : findall ownerTagHead r.key ++ findall ownerTagHead r.subkey with
  | nil => exact absurd hcaps hne
  | cons c rest =>
    have hall' : ∀ x ∈ c :: rest, x = pk := fun x hx => hall x (hcaps ▸ hx)
    have hdedup : (c :: rest).dedup = [pk] :=
      dedup_const pk (c :: rest) (by simp) hall'
    dsimp only
    rw [if_neg (by rw [hdedup]; simp)]
    rw [hall' c (List.mem_cons_self c rest)]

theorem signed_value_scan (v s : Bytes) (hv : 91 ∉ v) (hne : s ≠ [])
    (h10 : 10 ∉ s) (h93t : 93 ∉ s.tail) :
    findall sigTagHead (v ++ sigWrap s) = [s] ∧
    stripTags sigTagHead (v ++ sigWrap s) = v := by
  unfold sigWrap
  rw [sigTagHead_eq]
  constructor
  · rw [findall_skip_block _ v _ hv,
      findall_match_block (91 :: sigTagBody) s [] hne h10 h93t, findall_nil]
  · rw [stripTags_skip_block _ v _ hv,
      stripTags_match_block (91 :: sigTagBody) s [] hne h10 h93t, stripTags_nil,
      List.append_nil]

theorem idealSig_tail93 (pk m : Bytes) : 93 ∉ (idealSig pk m).tail :=
  fun h => no93_idealSig pk m (List.mem_of_mem_tail h)

theorem getD_set_self (l : List Nat) (i b : Nat) (h : i < l.length) :
    (l.set i b).getD i 0 = b := by
  rw [List.set_eq_take_append_cons_drop, if_pos h,
    List.getD_append_right _ _ _ _ (by rw [List.length_take]; omega)]
  rw [List.length_take]
  have : min i l.length = i := by omega
  rw [this, Nat.sub_self]
  rfl

theorem sigCheck_single_bad (pk : Bytes) (F : Bytes → Bytes) (w c : Bytes)
    (hf : findall sigTagHead w = [c])
    (hbad : c ≠ idealSig pk (F (stripTags sigTagHead w))) :
    sigCheck pk F w = false := by
  unfold sigCheck
  rw [hf]
  dsimp only
  unfold verifyBytes
  exact decide_eq_false hbad

theorem sigCheck_not_single (pk : Bytes) (F : Bytes → Bytes) (w : Bytes)
    (h : ∀ c, findall sigTagHead w ≠ [c]) : sigCheck pk F w = false := by
  unfold sigCheck
  cases hf : findall sigTagHead w with
  | nil => rfl
  | cons c rest =>
    cases rest with
    | nil => exact absurd hf (h c)
    | cons d u => rfl

theorem sigTagBody_getD_ne91 : ∀ j, j < 10 → sigTagBody.getD j 0 ≠ 91 := by decide

theorem sigTagBody_getD_ne115 : ∀ j, 1 ≤ j → j < 10 → sigTagBody.getD j 0 ≠ 115 := by
  decide

theorem no91_sigTagBody : (91 : Nat) ∉ sigTagBody := by decide

theorem no93_sigTagHead : (93 : Nat) ∉ sigTagHead := by decide

/-- Specializations of the block-scanning lemmas to the signature tag. -/
theorem findall_skip_block_sig (A r : Bytes) (hA : 91 ∉ A) :
    findall sigTagHead (A ++ r) = findall sigTagHead r := by
  rw [sigTagHead_eq]
  exact findall_skip_block _ A r hA

theorem stripTags_skip_block_sig (A r : Bytes) (hA : 91 ∉ A) :
    stripTags sigTagHead (A ++ r) = A ++ stripTags sigTagHead r := by
  rw [sigTagHead_eq]
  exact stripTags_skip_block _ A r hA

theorem findall_no91_sig (s : Bytes) (h : 91 ∉ s) : findall sigTagHead s = [] := by
  rw [sigTagHead_eq]
  exact findall_no91 _ s h

theorem sigwrap_scan (s : Bytes) (hne : s ≠ []) (h10 : 10 ∉ s)
    (h93t : 93 ∉ s.tail) :
    findall sigTagHead (sigWrap s) = [s] ∧
    stripTags sigTagHead (sigWrap s) = [] := by
  obtain ⟨h1, h2⟩ := signed_value_scan [] s (by simp) hne h10 h93t
  rw [List.nil_append] at h1 h2
  exact ⟨h1, h2⟩

/-- Tampering with a byte of the original value part of a signed value
makes the signature check fail. -/
theorem mut_value_region (pk : Bytes) (F : Bytes → Bytes)
    (hF : ∀ x y : Bytes, F x = F y → x = y)
    (v : Bytes) (hv : 91 ∉ v) (i b : Nat) (hi : i < v.length)
    (hb : b ≠ v.getD i 0) :
    sigCheck pk F (v.set i b ++ sigWrap (idealSig pk (F v))) = false := by
  have hsw := sigwrap_scan (idealSig pk (F v)) (idealSig_ne_nil _ _)
    (no10_idealSig _ _) (idealSig_tail93 _ _)
  by_cases hb91 : b = 91
  · subst hb91
    have hA : 91 ∉ v.take i := fun h => hv (List.mem_of_mem_take h)
    have hD : 91 ∉ v.drop (i + 1) := fun h => hv (List.mem_of_mem_drop h)
    have hset : v.set i 91 = v.take i ++ 91 :: v.drop (i + 1) := by
      rw [List.set_eq_take_append_cons_drop, if_pos hi]
    rw [hset, List.append_assoc, List.cons_append]
    cases htm : tryMatch sigTagHead
        (91 :: (v.drop (i + 1) ++ sigWrap (idealSig pk (F v)))) with
    | none =>
      have hf : findall sigTagHead
          (v.take i ++ 91 :: (v.drop (i + 1) ++ sigWrap (idealSig pk (F v)))) =
          [idealSig pk (F v)] := by
        rw [findall_skip_block_sig _ _ hA, findall_skip _ _ _ htm,
          findall_skip_block_sig _ _ hD, hsw.1]
      have hstrip : stripTags sigTagHead
          (v.take i ++ 91 :: (v.drop (i + 1) ++ sigWrap (idealSig pk (F v)))) =
          v.take i ++ 91 :: v.drop (i + 1) := by
        rw [stripTags_skip_block_sig _ _ hA, stripTags_skip _ _ _ htm,
          stripTags_skip_block_sig _ _ hD, hsw.2, List.append_nil]
      apply sigCheck_single_bad pk F _ _ hf
      rw [hstrip]
      intro heq
      obtain ⟨_, hmsg⟩ := idealSig_inj _ _ _ _ heq
      have hvv := hF _ _ hmsg
      rw [← hset] at hvv
      have hgd : (v.set i 91).getD i 0 = 91 := getD_set_self v i 91 hi
      rw [← hvv] at hgd
      exact hb hgd.symm
    | some pr =>
      obtain ⟨cap, rem⟩ := pr
      obtain ⟨hs0, hcapne⟩ := tryMatch_some _ _ _ _ htm
      rw [sigTagHead_eq, List.append_assoc, List.cons_append, List.cons.injEq] at hs0
      have htail : v.drop (i + 1) ++ sigWrap (idealSig pk (F v)) =
          sigTagBody ++ (cap ++ 93 :: rem) := hs0.2
      by_cases hD10 : 10 ≤ (v.drop (i + 1)).length
      · have htake := congrArg (List.take 10) htail
        rw [List.take_append_of_le_length hD10,
          List.take_append_of_le_length (by decide)] at htake
        have hbody : List.take 10 sigTagBody = sigTagBody := by decide
        rw [hbody] at htake
        have hDsplit : v.drop (i + 1) =
            sigTagBody ++ (v.drop (i + 1)).drop 10 := by
          conv_lhs => rw [← List.take_append_drop 10 (v.drop (i + 1))]
          rw [htake]
        rw [hDsplit, List.append_assoc] at htail
        have htail2 : (v.drop (i + 1)).drop 10 ++ sigWrap (idealSig pk (F v)) =
            cap ++ 93 :: rem := List.append_cancel_left htail
        have hD2 : 91 ∉ (v.drop (i + 1)).drop 10 :=
          fun h => hD (List.mem_of_mem_drop h)
        have hQ93 : (93 : Nat) ∉ sigTagHead ++ idealSig pk (F v) := by
          intro h
          rcases List.mem_append.mp h with h | h
          · exact no93_sigTagHead h
          · exact no93_idealSig _ _ h
        rcases split93 ((v.drop (i + 1)).drop 10)
            (sigTagHead ++ idealSig pk (F v)) cap rem hQ93
            (by rw [← htail2]; rfl) with
          ⟨P1, P2, hP, hcap, hrem⟩ | ⟨hcap, hrem⟩
        · apply sigCheck_not_single
          intro c
          rw [findall_skip_block_sig _ _ hA, findall_match _ _ _ _ htm, hrem]
          have hP2 : 91 ∉ P2 := by
            intro h
            apply hD2
            rw [hP]
            exact List.mem_append.mpr (Or.inr (List.mem_cons_of_mem _ h))
          rw [findall_skip_block_sig _ _ hP2]
          have hQform : sigTagHead ++ idealSig pk (F v) ++ [93] =
              sigWrap (idealSig pk (F v)) := rfl
          rw [hQform, hsw.1]
          simp
        · apply sigCheck_single_bad pk F _ cap
          · rw [findall_skip_block_sig _ _ hA, findall_match _ _ _ _ htm, hrem,
              findall_nil]
          · intro heq
            have h91cap : (91 : Nat) ∈ cap := by
              rw [hcap]
              refine List.mem_append.mpr (Or.inr (List.mem_append.mpr (Or.inl ?_)))
              rw [sigTagHead_eq]
              exact List.mem_cons_self _ _
            exact no91_idealSig _ _ (heq ▸ h91cap)
      · exfalso
        have hgd := congrArg (fun l => l.getD (v.drop (i + 1)).length 0) htail
        simp only at hgd
        rw [List.getD_append_right _ _ _ _ (le_refl _), Nat.sub_self] at hgd
        have hL : (sigWrap (idealSig pk (F v))).getD 0 0 = 91 := by
          unfold sigWrap
          rw [List.getD_append _ _ _ 0 (by
            rw [List.length_append]
            exact Nat.lt_of_lt_of_le
              (List.length_pos.mpr (idealSig_ne_nil pk (F v)))
              (Nat.le_add_left _ _)),
            List.getD_append _ _ _ 0 (by decide)]
          rfl
        rw [hL] at hgd
        rw [List.getD_append _ _ _ _ (by
          simp only [sigTagBody, List.length_cons]
          omega)] at hgd
        exact sigTagBody_getD_ne91 (v.drop (i + 1)).length (by omega) hgd.symm
  · have h91 : 91 ∉ v.set i b := by
      intro h
      rcases List.mem_or_eq_of_mem_set h with hm | hm
      · exact hv hm
      · exact hb91 hm.symm
    obtain ⟨hf, hs⟩ := signed_value_scan (v.set i b) (idealSig pk (F v)) h91
      (idealSig_ne_nil _ _) (no10_idealSig _ _) (idealSig_tail93 _ _)
    apply sigCheck_single_bad pk F _ _ hf
    rw [hs]
    intro heq
    obtain ⟨_, hmsg⟩ := idealSig_inj _ _ _ _ heq
    have hvv := hF _ _ hmsg
    have hgd : (v.set i b).getD i 0 = b := getD_set_self v i b hi
    rw [← hvv] at hgd
    exact hb hgd.symm

/-- A match attempt at a position where the tag is literally present
reduces to the capture scan on the remainder. -/
theorem tryMatch_prefix_capture (tag x : Bytes) :
    tryMatch tag (tag ++ x) = captureAfterTag x := by
  unfold tryMatch
  rw [if_pos (List.isPrefixOf_iff_prefix.mpr (List.prefix_append _ _)),
    List.drop_left]

/-- A match attempt fails whenever the scanned text differs from the tag at
some tag position. -/
theorem tryMatch_none_of_getD (tag s : Bytes) (j : Nat) (hj : j < tag.length)
    (h : s.getD j 0 ≠ tag.getD j 0) : tryMatch tag s = none := by
  unfold tryMatch
  rw [if_neg]
  intro hp
  obtain ⟨t, ht⟩ := List.isPrefixOf_iff_prefix.mp hp
  exact h (by rw [← ht, List.getD_append _ _ _ _ hj])

/-- The non-greedy capture fails when a newline precedes every `]`. -/
theorem captureAfterTag_none_of_ten2 (A B : Bytes) (h93 : 93 ∉ A) :
    captureAfterTag (A ++ 10 :: B) = none := by
  cases A with
  | nil =>
    rw [List.nil_append]
    unfold captureAfterTag
    dsimp only
    rw [if_pos rfl]
  | cons c t =>
    rw [List.cons_append]
    unfold captureAfterTag
    dsimp only
    by_cases h10 : c = 10
    · rw [if_pos h10]
    · rw [if_neg h10, findClose_none_of_ten t B
        (fun hm => h93 (List.mem_cons_of_mem _ hm))]

theorem idealSig_getD0_ne115 (pk m : Bytes) : (idealSig pk m).getD 0 0 ≠ 115 := by
  intro h
  apply no115_idealSig pk m
  have hl : 0 < (idealSig pk m).length :=
    List.length_pos.mpr (idealSig_ne_nil pk m)
  rw [List.getD_eq_getElem _ _ hl] at h
  exact h ▸ List.getElem_mem hl

/-- A correctly signed value passes the signature half of `validate`. -/
theorem sigCheck_roundtrip (pk : Bytes) (F : Bytes → Bytes) (v : Bytes)
    (hv : 91 ∉ v) :
    sigCheck pk F (v ++ sigWrap (idealSig pk (F v))) = true := by
  obtain ⟨hf, hs⟩ := signed_value_scan v (idealSig pk (F v)) hv
    (idealSig_ne_nil _ _) (no10_idealSig _ _) (idealSig_tail93 _ _)
  unfold sigCheck
  rw [hf]
  dsimp only
  rw [hs]
  unfold verifyBytes
  exact decide_eq_true rfl

/-- Tampering with a byte of the `[signature:` tag itself makes the
signature check fail: the scanner no longer finds any signature capture. -/
theorem mut_tag_region (pk : Bytes) (F : Bytes → Bytes) (v : Bytes)
    (hv : 91 ∉ v) (j b : Nat) (hj : j < 11) (hb : b ≠ sigTagHead.getD j 0) :
    sigCheck pk F
      (v ++ ((sigTagHead.set j b ++ idealSig pk (F v)) ++ [93])) = false := by
  apply sigCheck_not_single
  intro c
  cases j with
  | zero =>
    have hb91 : b ≠ 91 := hb
    have hset : sigTagHead.set 0 b = b :: sigTagBody := rfl
    have h91 : 91 ∉ v ++ ((b :: sigTagBody ++ idealSig pk (F v)) ++ [93]) := by
      intro hm
      rcases List.mem_append.mp hm with hm | hm
      · exact hv hm
      rcases List.mem_append.mp hm with hm | hm
      · rcases List.mem_append.mp hm with hm | hm
        · rcases List.mem_cons.mp hm with hm | hm
          · exact hb91 hm.symm
          · exact no91_sigTagBody hm
        · exact no91_idealSig _ _ hm
      · exact (by decide : ¬ (91 : Nat) ∈ ([93] : Bytes)) hm
    rw [hset, findall_no91_sig _ h91]
    simp
  | succ j' =>
    have hj' : j' < 10 := by omega
    have hset : sigTagHead.set (j' + 1) b = 91 :: sigTagBody.set j' b := rfl
    rw [hset, List.cons_append, List.cons_append,
      findall_skip_block_sig _ _ hv]
    have hlen : (sigTagBody.set j' b).length = 10 := by
      rw [List.length_set]
      rfl
    have htm1 : tryMatch sigTagHead
        (91 :: ((sigTagBody.set j' b ++ idealSig pk (F v)) ++ [93])) =
        none := by
      apply tryMatch_none_of_getD sigTagHead _ (j' + 1) (by show j' + 1 < 11; omega)
      have hs : (91 :: ((sigTagBody.set j' b ++ idealSig pk (F v)) ++
          [93])).getD (j' + 1) 0 = b := by
        rw [List.getD_cons_succ,
          List.getD_append _ _ _ _ (by rw [List.length_append, hlen]; omega),
          List.getD_append _ _ _ _ (by rw [hlen]; omega)]
        exact getD_set_self sigTagBody j' b hj'
      rw [hs]
      exact hb
    rw [findall_skip _ _ _ htm1]
    by_cases hbb : b = 91
    · subst hbb
      have hsplit : sigTagBody.set j' 91 =
          sigTagBody.take j' ++ 91 :: sigTagBody.drop (j' + 1) := by
        have hj2 : j' < sigTagBody.length := hj'
        rw [List.set_eq_take_append_cons_drop, if_pos hj2]
      rw [hsplit]
      have hshape : ((sigTagBody.take j' ++ 91 :: sigTagBody.drop (j' + 1)) ++
            idealSig pk (F v)) ++ [93] =
          sigTagBody.take j' ++
            (91 :: ((sigTagBody.drop (j' + 1) ++ idealSig pk (F v)) ++ [93])) := by
        simp [List.append_assoc]
      rw [hshape]
      have hA : 91 ∉ sigTagBody.take j' :=
        fun h => no91_sigTagBody (List.mem_of_mem_take h)
      rw [findall_skip_block_sig _ _ hA]
      have htm2 : tryMatch sigTagHead
          (91 :: ((sigTagBody.drop (j' + 1) ++ idealSig pk (F v)) ++ [93])) =
          none := by
        apply tryMatch_none_of_getD sigTagHead _ 1 (by show 1 < 11; omega)
        cases hD : sigTagBody.drop (j' + 1) with
        | nil =>
          rw [List.nil_append, List.getD_cons_succ,
            List.getD_append _ _ _ _ (List.length_pos.mpr (idealSig_ne_nil pk (F v)))]
          exact idealSig_getD0_ne115 pk (F v)
        | cons d D =>
          have hdm : d ∈ sigTagBody.drop (j' + 1) := by
            rw [hD]
            exact List.mem_cons_self _ _
          rw [show j' + 1 = 1 + j' from by omega, ← List.drop_drop] at hdm
          have hd115 : d ≠ 115 := fun he =>
            (by decide : (115 : Nat) ∉ sigTagBody.drop 1)
              (he ▸ List.mem_of_mem_drop hdm)
          rw [List.cons_append, List.cons_append, List.getD_cons_succ,
            List.getD_cons_zero]
          exact hd115
      rw [findall_skip _ _ _ htm2]
      have h91 : 91 ∉ (sigTagBody.drop (j' + 1) ++ idealSig pk (F v)) ++ [93] := by
        intro hm
        rcases List.mem_append.mp hm with hm | hm
        · rcases List.mem_append.mp hm with hm | hm
          · exact no91_sigTagBody (List.mem_of_mem_drop hm)
          · exact no91_idealSig _ _ hm
        · exact (by decide : ¬ (91 : Nat) ∈ ([93] : Bytes)) hm
      rw [findall_no91_sig _ h91]
      simp
    · have h91 : 91 ∉ (sigTagBody.set j' b ++ idealSig pk (F v)) ++ [93] := by
        intro hm
        rcases List.mem_append.mp hm with hm | hm
        · rcases List.mem_append.mp hm with hm | hm
          · rcases List.mem_or_eq_of_mem_set hm with hm | hm
            · exact no91_sigTagBody hm
            · exact hbb hm.symm
          · exact no91_idealSig _ _ hm
        · exact (by decide : ¬ (91 : Nat) ∈ ([93] : Bytes)) hm
      rw [findall_no91_sig _ h91]
      simp

/-- Tampering with a byte of the signature itself makes the signature
check fail: the capture either dies, is cut short, or carries wrong
signature bytes. -/
theorem mut_sig_region (pk : Bytes) (F : Bytes → Bytes) (v : Bytes)
    (hv : 91 ∉ v) (k b : Nat) (hk : k < (idealSig pk (F v)).length)
    (hb : b ≠ (idealSig pk (F v)).getD k 0) :
    sigCheck pk F
      (v ++ ((sigTagHead ++ (idealSig pk (F v)).set k b) ++ [93])) = false := by
  have hshape : (sigTagHead ++ (idealSig pk (F v)).set k b) ++ [93] =
      sigTagHead ++ ((idealSig pk (F v)).set k b ++ [93]) :=
    List.append_assoc _ _ _
  rw [hshape]
  by_cases hb10 : b = 10
  · subst hb10
    have hsplit : (idealSig pk (F v)).set k 10 =
        (idealSig pk (F v)).take k ++ 10 :: (idealSig pk (F v)).drop (k + 1) := by
      rw [List.set_eq_take_append_cons_drop, if_pos hk]
    apply sigCheck_not_single
    intro c
    rw [findall_skip_block_sig _ _ hv]
    have htm : tryMatch sigTagHead
        (sigTagHead ++ ((idealSig pk (F v)).set k 10 ++ [93])) = none := by
      rw [tryMatch_prefix_capture, hsplit]
      have hshape2 : ((idealSig pk (F v)).take k ++
            10 :: (idealSig pk (F v)).drop (k + 1)) ++ [93] =
          (idealSig pk (F v)).take k ++
            10 :: ((idealSig pk (F v)).drop (k + 1) ++ [93]) := by
        simp [List.append_assoc]
      rw [hshape2]
      exact captureAfterTag_none_of_ten2 _ _
        (fun hm => no93_idealSig pk (F v) (List.mem_of_mem_take hm))
    have htm2 : tryMatch sigTagHead
        (91 :: (sigTagBody ++ ((idealSig pk (F v)).set k 10 ++ [93]))) =
        none := htm
    rw [show sigTagHead ++ ((idealSig pk (F v)).set k 10 ++ [93]) =
        91 :: (sigTagBody ++ ((idealSig pk (F v)).set k 10 ++ [93])) from rfl]
    rw [findall_skip _ _ _ htm2]
    have h91 : 91 ∉ sigTagBody ++ ((idealSig pk (F v)).set k 10 ++ [93]) := by
      intro hm
      rcases List.mem_append.mp hm with hm | hm
      · exact no91_sigTagBody hm
      rcases List.mem_append.mp hm with hm | hm
      · rcases List.mem_or_eq_of_mem_set hm with hm | hm
        · exact no91_idealSig _ _ hm
        · exact absurd hm (by decide)
      · exact (by decide : ¬ (91 : Nat) ∈ ([93] : Bytes)) hm
    rw [findall_no91_sig _ h91]
    simp
  · by_cases hb93 : b = 93
    · subst hb93
      rcases Nat.eq_zero_or_pos k with hk0 | hk0
      · subst hk0
        cases hsig : idealSig pk (F v) with
        | nil => exact absurd hsig (idealSig_ne_nil _ _)
        | cons s0 st =>
          have h93st : 93 ∉ st := by
            have := idealSig_tail93 pk (F v)
            rw [hsig] at this
            exact this
          have h10st : 10 ∉ st := by
            have := no10_idealSig pk (F v)
            rw [hsig] at this
            exact fun hm => this (List.mem_cons_of_mem _ hm)
          have hcap : captureAfterTag (93 :: (st ++ [93])) =
              some (93 :: st, []) := by
            unfold captureAfterTag
            dsimp only
            rw [if_neg (by decide : ¬ (93 : Nat) = 10),
              findClose_append st [] h93st h10st]
          have htm : tryMatch sigTagHead
              (sigTagHead ++ ((s0 :: st).set 0 93 ++ [93])) =
              some (93 :: st, []) := by
            rw [tryMatch_prefix_capture]
            exact hcap
          apply sigCheck_single_bad pk F _ (93 :: st)
          · rw [findall_skip_block_sig _ _ hv, findall_match _ _ _ _ htm,
              findall_nil]
          · intro heq
            exact no93_idealSig _ _ (heq ▸ List.mem_cons_self 93 st)
      · have hsplit : (idealSig pk (F v)).set k 93 =
            (idealSig pk (F v)).take k ++
              93 :: (idealSig pk (F v)).drop (k + 1) := by
          rw [List.set_eq_take_append_cons_drop, if_pos hk]
        have hne : (idealSig pk (F v)).take k ≠ [] := by
          intro h
          have hl := congrArg List.length h
          rw [List.length_take] at hl
          simp only [List.length_nil] at hl
          rcases Nat.min_eq_zero_iff.mp hl with h0 | h0
          · omega
          · omega
        have htm : tryMatch sigTagHead
            (sigTagHead ++ ((idealSig pk (F v)).set k 93 ++ [93])) =
            some ((idealSig pk (F v)).take k,
              (idealSig pk (F v)).drop (k + 1) ++ [93]) := by
          rw [tryMatch_prefix_capture, hsplit]
          have hshape2 : ((idealSig pk (F v)).take k ++
                93 :: (idealSig pk (F v)).drop (k + 1)) ++ [93] =
              (idealSig pk (F v)).take k ++
                93 :: ((idealSig pk (F v)).drop (k + 1) ++ [93]) := by
            simp [List.append_assoc]
          rw [hshape2]
          exact captureAfterTag_build _ _ hne
            (fun hm => no10_idealSig pk (F v) (List.mem_of_mem_take hm))
            (fun hm => no93_idealSig pk (F v)
              (List.mem_of_mem_take (List.mem_of_mem_tail hm)))
        apply sigCheck_single_bad pk F _ ((idealSig pk (F v)).take k)
        · rw [findall_skip_block_sig _ _ hv, findall_match _ _ _ _ htm]
          have h91 : 91 ∉ (idealSig pk (F v)).drop (k + 1) ++ [93] := by
            intro hm
            rcases List.mem_append.mp hm with hm | hm
            · exact no91_idealSig _ _ (List.mem_of_mem_drop hm)
            · exact (by decide : ¬ (91 : Nat) ∈ ([93] : Bytes)) hm
          rw [findall_no91_sig _ h91]
        · exact idealSig_take_ne pk (F v) k hk pk _
    · have hX10 : 10 ∉ (idealSig pk (F v)).set k b := by
        intro hm
        rcases List.mem_or_eq_of_mem_set hm with hm | hm
        · exact no10_idealSig _ _ hm
        · exact hb10 hm.symm
      have hX93 : 93 ∉ (idealSig pk (F v)).set k b := by
        intro hm
        rcases List.mem_or_eq_of_mem_set hm with hm | hm
        · exact no93_idealSig _ _ hm
        · exact hb93 hm.symm
      have hXne : (idealSig pk (F v)).set k b ≠ [] := by
        intro h
        have := congrArg List.length h
        rw [List.length_set] at this
        exact idealSig_ne_nil pk (F v) (List.length_eq_zero.mp this)
      have htm : tryMatch sigTagHead
          (sigTagHead ++ ((idealSig pk (F v)).set k b ++ [93])) =
          some ((idealSig pk (F v)).set k b, []) := by
        rw [tryMatch_prefix_capture]
        exact captureAfterTag_build _ _ hXne hX10
          (fun hm => hX93 (List.mem_of_mem_tail hm))
      have hf : findall sigTagHead
          (v ++ (sigTagHead ++ ((idealSig pk (F v)).set k b ++ [93]))) =
          [(idealSig pk (F v)).set k b] := by
        rw [findall_skip_block_sig _ _ hv, findall_match _ _ _ _ htm,
          findall_nil]
      have hstrip : stripTags sigTagHead
          (v ++ (sigTagHead ++ ((idealSig pk (F v)).set k b ++ [93]))) = v := by
        rw [stripTags_skip_block_sig _ _ hv, stripTags_match _ _ _ _ htm,
          stripTags_nil, List.append_nil]
      apply sigCheck_single_bad pk F _ _ hf
      rw [hstrip]
      intro heq
      have hgd := getD_set_self (idealSig pk (F v)) k b hk
      rw [heq] at hgd
      exact hb hgd.symm

/-- Tampering with the closing `]` of the signature tag makes the
signature check fail: the scanner finds no complete signature tag. -/
theorem mut_close_region (pk : Bytes) (F : Bytes → Bytes) (v : Bytes)
    (hv : 91 ∉ v) (b : Nat) (hb : b ≠ 93) :
    sigCheck pk F (v ++ ((sigTagHead ++ idealSig pk (F v)) ++ [b])) = false := by
  have hshape : (sigTagHead ++ idealSig pk (F v)) ++ [b] =
      sigTagHead ++ (idealSig pk (F v) ++ [b]) := List.append_assoc _ _ _
  rw [hshape]
  apply sigCheck_not_single
  intro c
  rw [findall_skip_block_sig _ _ hv]
  have htm : tryMatch sigTagHead
      (sigTagHead ++ (idealSig pk (F v) ++ [b])) = none := by
    rw [tryMatch_prefix_capture]
    apply captureAfterTag_none_of_no93
    intro hm
    rcases List.mem_append.mp hm with hm | hm
    · exact no93_idealSig _ _ hm
    · exact hb (List.mem_singleton.mp hm).symm
  have htm2 : tryMatch sigTagHead
      (91 :: (sigTagBody ++ (idealSig pk (F v) ++ [b]))) = none := htm
  rw [show sigTagHead ++ (idealSig pk (F v) ++ [b]) =
      91 :: (sigTagBody ++ (idealSig pk (F v) ++ [b])) from rfl]
  rw [findall_skip _ _ _ htm2]
  by_cases hb91 : b = 91
  · subst hb91
    have hblock : 91 ∉ sigTagBody ++ idealSig pk (F v) := by
      intro hm
      rcases List.mem_append.mp hm with hm | hm
      · exact no91_sigTagBody hm
      · exact no91_idealSig _ _ hm
    have hshape2 : sigTagBody ++ (idealSig pk (F v) ++ [91]) =
        (sigTagBody ++ idealSig pk (F v)) ++ [91] :=
      (List.append_assoc _ _ _).symm
    rw [hshape2, findall_skip_block_sig _ _ hblock,
      show findall sigTagHead [91] = [] from rfl]
    simp
  · have h91 : 91 ∉ sigTagBody ++ (idealSig pk (F v) ++ [b]) := by
      intro hm
      rcases List.mem_append.mp hm with hm | hm
      · exact no91_sigTagBody hm
      rcases List.mem_append.mp hm with hm | hm
      · exact no91_idealSig _ _ hm
      · exact hb91 (List.mem_singleton.mp hm).symm
    rw [findall_no91_sig _ h91]
    simp

/-- On a protected record, `validate` is exactly the signature check of
the stored value under the record rebuilt from the stripped value. -/
theorem validateSig_sigCheck (r : DHTRec) (pk w : Bytes)
    (hne : findall ownerTagHead r.key ++ findall ownerTagHead r.subkey ≠ [])
    (hall : ∀ c ∈ findall ownerTagHead r.key ++ findall ownerTagHead r.subkey,
      c = pk) :
    validateSig { r with value := w } =
      sigCheck pk (fun x => serializeRecord { r with value := x }) w := by
  rw [validateSig_protected { r with value := w } pk hne hall]
  rfl

/-- The canonical serialization is injective in the value field. -/
theorem serializeValue_inj (r : DHTRec) : ∀ (x y : Bytes),
    serializeRecord { r with value := x } =
      serializeRecord { r with value := y } → x = y :=
  fun _ _ h => congrArg DHTRec.value (serializeRecord_inj _ _ h)

/-- C1: for every keypair and every record whose key or subkey carries
the owner tag of the corresponding public key (and whose owner-tag
captures all name that key), replacing the record value with `sign_value`
makes `validate` accept; and mutating any byte of the stored value,
changing the expiration time, or replacing the signature with one
produced by a different keypair makes `validate` reject.  The original
value is assumed free of the byte `[`, the delimiter of the validator's
tag syntax. -/
theorem c1_signed_record_roundtrip (K : Nat) (r : DHTRec)
    (hinf : ownerTag (pubKey K) <:+: r.key ∨ ownerTag (pubKey K) <:+: r.subkey)
    (hne : findall ownerTagHead r.key ++ findall ownerTagHead r.subkey ≠ [])
    (hall : ∀ c ∈ findall ownerTagHead r.key ++ findall ownerTagHead r.subkey,
      c = pubKey K)
    (hv : 91 ∉ r.value) :
    validateSig { r with value := signValue K r } = true ∧
    (∀ i b, i < (signValue K r).length → b ≠ (signValue K r).getD i 0 →
      validateSig { r with value := (signValue K r).set i b } = false) ∧
    (∀ e, e ≠ r.expiration_time →
      validateSig { key := r.key, subkey := r.subkey, value := signValue K r, expiration_time := e } = false) ∧
    (∀ K2, K2 ≠ K →
      validateSig { r with value := r.value ++ sigWrap (signBytes K2 (serializeRecord r)) } = false) := by
  have hsv : signValue K r =
      r.value ++ sigWrap (signBytes K (serializeRecord r)) := by
    unfold signValue
    rw [if_pos hinf]
  have hT : sigTagHead.length = 11 := rfl
  refine ⟨?_, ?_, ?_, ?_⟩
  · rw [hsv]
    exact (validateSig_sigCheck r (pubKey K) _ hne hall).trans
      (sigCheck_roundtrip (pubKey K)
        (fun x => serializeRecord { r with value := x }) r.value hv)
  · intro i b hi hbne
    rw [hsv] at hi hbne ⊢
    by_cases hiv : i < r.value.length
    · have hset : (r.value ++ sigWrap (signBytes K (serializeRecord r))).set i b =
          r.value.set i b ++ sigWrap (signBytes K (serializeRecord r)) := by
        rw [List.set_append, if_pos hiv]
      rw [hset]
      have hb2 : b ≠ r.value.getD i 0 := by
        have hgd := List.getD_append r.value
          (sigWrap (signBytes K (serializeRecord r))) 0 i hiv
        rw [hgd] at hbne
        exact hbne
      exact (validateSig_sigCheck r (pubKey K) _ hne hall).trans
        (mut_value_region (pubKey K) _ (serializeValue_inj r) r.value hv i b
          hiv hb2)
    · have hj : r.value.length ≤ i := le_of_not_lt hiv
      have hset : (r.value ++ sigWrap (signBytes K (serializeRecord r))).set i b =
          r.value ++
            (sigWrap (signBytes K (serializeRecord r))).set (i - r.value.length) b := by
        rw [List.set_append, if_neg hiv]
      rw [hset]
      have hi2 : i - r.value.length <
          (signBytes K (serializeRecord r)).length + 12 := by
        rw [List.length_append] at hi
        have hLS : (sigWrap (signBytes K (serializeRecord r))).length =
            (signBytes K (serializeRecord r)).length + 12 := by
          show ((sigTagHead ++ signBytes K (serializeRecord r)) ++ [93]).length = _
          rw [List.length_append, List.length_append, hT, List.length_singleton]
          omega
        rw [hLS] at hi
        omega
      by_cases hj11 : i - r.value.length < 11
      · have hset2 : (sigWrap (signBytes K (serializeRecord r))).set
            (i - r.value.length) b =
            (sigTagHead.set (i - r.value.length) b ++
              signBytes K (serializeRecord r)) ++ [93] := by
          show ((sigTagHead ++ signBytes K (serializeRecord r)) ++ [93]).set
            (i - r.value.length) b = _
          rw [List.set_append, if_pos (show i - r.value.length <
            (sigTagHead ++ signBytes K (serializeRecord r)).length from by
              rw [List.length_append, hT]; omega)]
          rw [List.set_append, if_pos (show i - r.value.length <
            sigTagHead.length from by rw [hT]; omega)]
        rw [hset2]
        have hb2 : b ≠ sigTagHead.getD (i - r.value.length) 0 := by
          intro h
          apply hbne
          rw [List.getD_append_right _ _ _ _ hj]
          show b = ((sigTagHead ++ signBytes K (serializeRecord r)) ++
            [93]).getD (i - r.value.length) 0
          rw [List.getD_append _ _ _ _ (by rw [List.length_append, hT]; omega),
            List.getD_append _ _ _ _ (by rw [hT]; omega)]
          exact h
        exact (validateSig_sigCheck r (pubKey K) _ hne hall).trans
          (mut_tag_region (pubKey K) _ r.value hv (i - r.value.length) b
            hj11 hb2)
      · by_cases hj2 : i - r.value.length <
            11 + (signBytes K (serializeRecord r)).length
        · have hset2 : (sigWrap (signBytes K (serializeRecord r))).set
              (i - r.value.length) b =
              (sigTagHead ++ (signBytes K (serializeRecord r)).set
                (i - r.value.length - 11) b) ++ [93] := by
            show ((sigTagHead ++ signBytes K (serializeRecord r)) ++ [93]).set
              (i - r.value.length) b = _
            rw [List.set_append, if_pos (show i - r.value.length <
              (sigTagHead ++ signBytes K (serializeRecord r)).length from by
                rw [List.length_append, hT]; omega)]
            rw [List.set_append, if_neg (show ¬ i - r.value.length <
              sigTagHead.length from by rw [hT]; omega)]
            rw [hT]
          rw [hset2]
          have hk : i - r.value.length - 11 <
              (signBytes K (serializeRecord r)).length := by omega
          have hb2 : b ≠ (signBytes K (serializeRecord r)).getD
              (i - r.value.length - 11) 0 := by
            intro h
            apply hbne
            rw [List.getD_append_right _ _ _ _ hj]
            show b = ((sigTagHead ++ signBytes K (serializeRecord r)) ++
              [93]).getD (i - r.value.length) 0
            rw [List.getD_append _ _ _ _ (by rw [List.length_append, hT]; omega),
              List.getD_append_right _ _ _ _ (show sigTagHead.length ≤
                i - r.value.length from by rw [hT]; omega), hT]
            exact h
          exact (validateSig_sigCheck r (pubKey K) _ hne hall).trans
            (mut_sig_region (pubKey K) _ r.value hv (i - r.value.length - 11) b
              hk hb2)
        · have hset2 : (sigWrap (signBytes K (serializeRecord r))).set
              (i - r.value.length) b =
              (sigTagHead ++ signBytes K (serializeRecord r)) ++ [b] := by
            show ((sigTagHead ++ signBytes K (serializeRecord r)) ++ [93]).set
              (i - r.value.length) b = _
            rw [List.set_append, if_neg (show ¬ i - r.value.length <
              (sigTagHead ++ signBytes K (serializeRecord r)).length from by
                rw [List.length_append, hT]; omega)]
            have hz : i - r.value.length -
                (sigTagHead ++ signBytes K (serializeRecord r)).length = 0 := by
              rw [List.length_append, hT]
              omega
            rw [hz]
            rfl
          rw [hset2]
          have hb2 : b ≠ 93 := by
            intro h
            apply hbne
            rw [List.getD_append_right _ _ _ _ hj]
            show b = ((sigTagHead ++ signBytes K (serializeRecord r)) ++
              [93]).getD (i - r.value.length) 0
            rw [List.getD_append_right _ _ _ _ (show
              (sigTagHead ++ signBytes K (serializeRecord r)).length ≤
                i - r.value.length from by rw [List.length_append, hT]; omega)]
            have hz : i - r.value.length -
                (sigTagHead ++ signBytes K (serializeRecord r)).length = 0 := by
              rw [List.length_append, hT]
              omega
            rw [hz]
            exact h
          exact (validateSig_sigCheck r (pubKey K) _ hne hall).trans
            (mut_close_region (pubKey K) _ r.value hv b hb2)
  · intro e he
    rw [hsv]
    refine (validateSig_sigCheck { r with expiration_time := e } (pubKey K) _
      hne hall).trans ?_
    obtain ⟨hf, hs⟩ := signed_value_scan r.value
      (signBytes K (serializeRecord r)) hv (idealSig_ne_nil _ _)
      (no10_idealSig _ _) (idealSig_tail93 _ _)
    unfold sigCheck
    rw [hf]
    dsimp only
    rw [hs]
    unfold verifyBytes
    apply decide_eq_false
    intro heq
    obtain ⟨_, hmsg⟩ := idealSig_inj _ _ _ _ heq
    have hr := serializeRecord_inj _ _ hmsg
    exact he (congrArg DHTRec.expiration_time hr).symm
  · intro K2 hK2
    refine (validateSig_sigCheck r (pubKey K) _ hne hall).trans ?_
    obtain ⟨hf, hs⟩ := signed_value_scan r.value
      (signBytes K2 (serializeRecord r)) hv (idealSig_ne_nil _ _)
      (no10_idealSig _ _) (idealSig_tail93 _ _)
    unfold sigCheck
    rw [hf]
    dsimp only
    rw [hs]
    unfold verifyBytes
    apply decide_eq_false
    intro heq
    obtain ⟨hpk, _⟩ := idealSig_inj _ _ _ _ heq
    exact hK2 (pubKey_inj _ _ hpk)

/-- C1 witness: the round trip holds at the concrete keypair 0 and a
concrete protected record. -/
theorem c1_signed_record_roundtrip_witness :
    validateSig { (⟨ownerTag (pubKey 0), [1], [2], 0⟩ : DHTRec) with value := signValue 0 ⟨ownerTag (pubKey 0), [1], [2], 0⟩ } = true :=
  (c1_signed_record_roundtrip 0 ⟨ownerTag (pubKey 0), [1], [2], 0⟩
    (Or.inl List.infix_rfl) (by decide) (by decide) (by decide)).1

/-! ## C7 -/

theorem processReveal_attested (extract : Bytes → Option String)
    (cd : ConsensusDataM) (included : List (Nat × String))
    (commits : List (Bytes × StoredVal)) (entry : Bytes × StoredVal)
    (p : String) (raw : List (Int × Int))
    (h : processReveal extract cd included commits entry = some (p, raw)) :
    did_node_attest (get_peers_node_id p included) cd = true := by
  unfold processReveal at h
  cases he : extract entry.1 with
  | none => rw [he] at h; simp at h
  | some peer =>
    rw [he] at h
    dsimp only at h
    by_cases hatt : did_node_attest (get_peers_node_id peer included) cd = false
    · rw [if_pos hatt] at h; simp at h
    · rw [if_neg hatt] at h
      have hpe : peer = p := by
        cases hv : entry.2 with
        | bytes b => rw [hv] at h; simp at h
        | other => rw [hv] at h; simp at h
        | payload salt body =>
          rw [hv] at h
          cases hl : commits.lookup entry.1 with
          | none => rw [hl] at h; simp at h
          | some sv =>
            rw [hl] at h
            cases sv with
            | payload s2 b2 => simp at h
            | other => simp at h
            | bytes digest =>
              dsimp only at h
              by_cases hd : digest = sha256M (salt ++ body)
              · rw [if_pos hd] at h
                cases hr : pickleLoadsPairs body with
                | none => rw [hr] at h; simp at h
                | some raw2 =>
                  rw [hr] at h
                  simp at h
                  exact h.1
              · rw [if_neg hd] at h; simp at h
      rw [← hpe]
      cases hdid : did_node_attest (get_peers_node_id peer included) cd with
      | false => exact absurd hdid hatt
      | true => rfl

/-- Every key of the `results` dictionary belongs to an attesting node. -/
def AttestedKeys (cd : ConsensusDataM) (included : List (Nat × String))
    (res : List (String × List (Int × Int))) : Prop :=
  ∀ e ∈ res, did_node_attest (get_peers_node_id e.1 included) cd = true

theorem upsert_attested (cd : ConsensusDataM) (included : List (Nat × String))
    (res : List (String × List (Int × Int))) (k : String) (v : List (Int × Int))
    (hres : AttestedKeys cd included res)
    (hk : did_node_attest (get_peers_node_id k included) cd = true) :
    AttestedKeys cd included (upsert res k v) := by
  intro e he
  unfold upsert at he
  split at he
  · obtain ⟨e0, he0, heq⟩ := List.mem_map.mp he
    by_cases h0 : e0.1 = k
    · rw [if_pos (by simpa using h0)] at heq
      rw [← heq]
      exact hk
    · rw [if_neg (by simpa using h0)] at heq
      rw [← heq]
      exact hres e0 he0
  · rcases List.mem_append.mp he with h1 | h2
    · exact hres e h1
    · have : e = (k, v) := by simpa using h2
      rw [this]
      exact hk

theorem collectReveals_attested (extract : Bytes → Option String)
    (cd : ConsensusDataM) (included : List (Nat × String))
    (commits : List (Bytes × StoredVal)) (reveals : List (Bytes × StoredVal)) :
    AttestedKeys cd included (collectReveals extract cd included commits reveals) := by
  unfold collectReveals
  have H : ∀ (l : List (Bytes × StoredVal)) (res : List (String × List (Int × Int))),
      AttestedKeys cd included res →
      AttestedKeys cd included (l.foldl
        (fun res entry =>
          match processReveal extract cd included commits entry with
          | none => res
          | some (p, raw) => upsert res p raw) res) := by
    intro l
    induction l with
    | nil => intro res h; exact h
    | cons a t ih =>
      intro res h
      simp only [List.foldl_cons]
      cases hp : processReveal extract cd included commits a with
      | none => exact ih res h
      | some pr =>
        exact ih _ (upsert_attested cd included res pr.1 pr.2 h
          (processReveal_attested extract cd included commits a pr.1 pr.2
            (by rw [hp])))
  exact H reveals [] (fun e he => absurd he (List.not_mem_nil e))

/-- The claim as frozen says `verify_score_reveals` at epoch `E` requires
the *current-epoch* attestation ratio to be at least 0.66.  The source reads
the consensus data of epoch `E − 2`.  Concrete refutation at `E = 2`: the
epoch-0 consensus data has ratio 1, the epoch-2 consensus data has ratio 0,
and the call still returns a (nonempty) score list. -/
theorem c7_counterexample :
    Option.map (fun l => l.map Prod.fst)
      (verify_score_reveals
        (fun b => if b = [7] then some "peer1" else none)
        (fun k =>
          if k = get_scores_commit_key 0 then
            some [([7], StoredVal.bytes (sha256M ([9] ++ pickleDumpsPairs [(1, 5)])))]
          else if k = get_scores_reveal_key 2 then
            some [([7], StoredVal.payload [9] (pickleDumpsPairs [(1, 5)]))]
          else none)
        (fun e => if e = 0 then some ⟨[[1]], [1], [(1, 5)]⟩
          else if e = 2 then some ⟨[], [1], [(1, 5)]⟩ else none)
        2 [(1, "peer1")]) = some ["peer1"] ∧
    get_attestation_ratio ⟨[], [1], [(1, 5)]⟩ = 0 := by
  constructor
  · have step : verify_score_reveals
        (fun b => if b = [7] then some "peer1" else none)
        (fun k =>
          if k = get_scores_commit_key 0 then
            some [([7], StoredVal.bytes (sha256M ([9] ++ pickleDumpsPairs [(1, 5)])))]
          else if k = get_scores_reveal_key 2 then
            some [([7], StoredVal.payload [9] (pickleDumpsPairs [(1, 5)]))]
          else none)
        (fun e => if e = 0 then some ⟨[[1]], [1], [(1, 5)]⟩
          else if e = 2 then some ⟨[], [1], [(1, 5)]⟩ else none)
        2 [(1, "peer1")] =
        if get_attestation_ratio ⟨[[1]], [1], [(1, 5)]⟩ < 66 / 100 then none
        else some [("peer1",
          pyInt (compare_consensus_data [(1, 5)] [(1, 5)] * 10 ^ 18))] := rfl
    rw [step, if_neg (by norm_num [get_attestation_ratio])]
    rfl
  · simp [get_attestation_ratio]

/-- Claim C7 (amended): `verify_score_reveals` at epoch `E` (a) reads the
DHT only at `scores_commit_epoch_{E−2}` and `scores_reveal_epoch_{E}`;
(b) returns no scores when the consensus data of epoch `E − 2` is missing or
its attestation ratio is below 0.66; and (c) only reveals from nodes that
attested (in the epoch `E − 2` consensus data) are counted — every returned
score belongs to an attesting node. -/
theorem c7_score_reveals (extract : Bytes → Option String)
    (dht dht2 : String → Option (List (Bytes × StoredVal)))
    (chain : Nat → Option ConsensusDataM) (E : Nat)
    (included : List (Nat × String)) :
    (dht (get_scores_commit_key (E - 2)) = dht2 (get_scores_commit_key (E - 2)) →
      dht (get_scores_reveal_key E) = dht2 (get_scores_reveal_key E) →
      verify_score_reveals extract dht chain E included =
        verify_score_reveals extract dht2 chain E included) ∧
    (chain (E - 2) = none →
      verify_score_reveals extract dht chain E included = none) ∧
    (∀ cd, chain (E - 2) = some cd → get_attestation_ratio cd < 66 / 100 →
      verify_score_reveals extract dht chain E included = none) ∧
    (∀ cd out p z, chain (E - 2) = some cd →
      verify_score_reveals extract dht chain E included = some out →
      (p, z) ∈ out →
      did_node_attest (get_peers_node_id p included) cd = true) := by
  refine ⟨?_, ?_, ?_, ?_⟩
  · intro h1 h2
    unfold verify_score_reveals
    rw [h1, h2]
  · intro hchain
    unfold verify_score_reveals
    dsimp only
    split
    · rfl
    · rw [hchain]
  · intro cd hchain hratio
    unfold verify_score_reveals
    dsimp only
    split
    · rfl
    · rw [hchain]
      dsimp only
      rw [if_pos hratio]
  · intro cd out p z hchain hout hmem
    unfold verify_score_reveals at hout
    dsimp only at hout
    split at hout
    · simp at hout
    · rw [hchain] at hout
      dsimp only at hout
      by_cases hratio : get_attestation_ratio cd < 66 / 100
      · rw [if_pos hratio] at hout; simp at hout
      · rw [if_neg hratio] at hout
        cases hr : dht (get_scores_reveal_key E) with
        | none => rw [hr] at hout; simp at hout
        | some reveals =>
          rw [hr] at hout
          simp only [Option.some.injEq] at hout
          rw [← hout] at hmem
          obtain ⟨e, he, heq⟩ := List.mem_map.mp hmem
          have hatt := collectReveals_attested extract cd included
            ((dht (get_scores_commit_key (E - 2))).getD []) reveals e he
          have hp : e.1 = p := by
            have := congrArg Prod.fst heq
            simpa using this
          rw [← hp]
          exact hatt

theorem c7_score_reveals_witness :
    verify_score_reveals (fun _ => none) (fun _ => none) (fun _ => none) 7 [] =
      none :=
  (c7_score_reveals (fun _ => none) (fun _ => none) (fun _ => none)
    (fun _ => none) 7 []).2.1 rfl

/-! ## C3 -/

theorem do_validate_skew_false (localPub : Bytes) (store : NonceStore)
    (r : AuthRequest) (now : ℚ)
    (h : |r.time - now| > MAX_CLIENT_SERVICER_TIME_DIFF) :
    do_validate_request localPub store r now = false := by
  unfold do_validate_request
  split_ifs <;> simp_all

theorem do_validate_replay_false (localPub : Bytes) (store : NonceStore)
    (r : AuthRequest) (now texp : ℚ) (n : Bytes) (hmem : (n, texp) ∈ store)
    (hn : r.nonce = n) (hexp : now ≤ texp) :
    do_validate_request localPub store r now = false := by
  have hseen : nonceSeen store r.nonce now = true := by
    unfold nonceSeen
    rw [List.any_eq_true]
    exact ⟨(n, texp), hmem, by simp [hn, hexp]⟩
  unfold do_validate_request
  split_ifs <;> simp_all

theorem do_validate_accept (localPub : Bytes) (store : NonceStore)
    (r : AuthRequest) (now : ℚ) (sk : Nat)
    (hpk : r.client_public_key = pubKey sk)
    (hsig : r.signature = signBytes sk (serializeRequest { r with signature := [] }))
    (hsvc : r.service_public_key = [] ∨ r.service_public_key = localPub)
    (hskew : |r.time - now| ≤ MAX_CLIENT_SERVICER_TIME_DIFF)
    (hstore : ∀ e ∈ store, e.1 = r.nonce → e.2 < now) :
    do_validate_request localPub store r now = true := by
  have h1 : verifyBytes r.client_public_key
      (serializeRequest { r with signature := [] }) r.signature = true := by
    rw [hpk, hsig]
    simp only [verifyBytes, signBytes, decide_eq_true_eq]
    rw [hpk]
  have h2 : ¬ (r.service_public_key ≠ [] ∧ r.service_public_key ≠ localPub) := by
    rcases hsvc with h | h
    · exact fun hc => hc.1 h
    · exact fun hc => hc.2 h
  have h3 : ¬ (|r.time - now| > MAX_CLIENT_SERVICER_TIME_DIFF) := not_lt.mpr hskew
  have h4 : nonceSeen store r.nonce now = false := by
    unfold nonceSeen
    rw [List.any_eq_false]
    intro e he
    simp only [Bool.and_eq_true, beq_iff_eq, decide_eq_true_eq, not_and]
    intro heq hle
    exact absurd hle (not_le.mpr (hstore e he heq))
  unfold do_validate_request
  simp [h1, h2, h3, h4]

/-- Claim C3: `SignatureAuthorizer.validate_request`
(a) rejects whenever the stamped time differs from the local clock by more
than 60 s; (b) a successful validation at time `t` stores the nonce with
expiration `t + 3 × 60 s`; (c) while a stored entry for the nonce is still
live (`now ≤ expiration`), the same nonce is rejected; (d) once every stored
entry for that nonce has expired (`now` past `t + 180`), a well-signed,
well-timed request with the same nonce is accepted again. -/
theorem c3_skew_and_nonce_replay (localPub : Bytes) (store : NonceStore)
    (r : AuthRequest) (now t : ℚ) :
    (|r.time - now| > 60 → (validate_request localPub store r now).1 = false) ∧
    ((validate_request localPub store r t).1 = true →
      (validate_request localPub store r t).2 = (r.nonce, t + 180) :: store) ∧
    (∀ (texp : ℚ) (n : Bytes), (n, texp) ∈ store → r.nonce = n → now ≤ texp →
      (validate_request localPub store r now).1 = false) ∧
    (∀ sk : Nat, r.client_public_key = pubKey sk →
      r.signature = signBytes sk (serializeRequest { r with signature := [] }) →
      (r.service_public_key = [] ∨ r.service_public_key = localPub) →
      |r.time - now| ≤ 60 →
      (∀ e ∈ store, e.1 = r.nonce → e.2 < now) →
      (validate_request localPub store r now).1 = true) := by
  refine ⟨?_, ?_, ?_, ?_⟩
  · intro h
    unfold validate_request
    rw [if_neg]
    simp [do_validate_skew_false localPub store r now
      (by simpa [MAX_CLIENT_SERVICER_TIME_DIFF] using h)]
  · intro hacc
    unfold validate_request at hacc ⊢
    by_cases hdo : do_validate_request localPub store r t = true
    · rw [if_pos hdo]
      have : MAX_CLIENT_SERVICER_TIME_DIFF * 3 = 180 := by
        norm_num [MAX_CLIENT_SERVICER_TIME_DIFF]
      rw [this]
    · rw [if_neg hdo] at hacc
      simp at hacc
  · intro texp n hmem hn hexp
    unfold validate_request
    rw [if_neg]
    simp [do_validate_replay_false localPub store r now texp n hmem hn hexp]
  · intro sk hpk hsig hsvc hskew hstore
    unfold validate_request
    rw [if_pos]
    exact do_validate_accept localPub store r now sk hpk hsig hsvc
      (by simpa [MAX_CLIENT_SERVICER_TIME_DIFF] using hskew) hstore

theorem c3_skew_and_nonce_replay_witness :
    (validate_request [] [([5], 180)]
      { client_public_key := pubKey 0, service_public_key := [],
        time := 0, nonce := [5],
        signature := signBytes 0 (serializeRequest
          { client_public_key := pubKey 0, service_public_key := [],
            time := 0, nonce := [5], signature := [] }) } 100).1 = false :=
  (c3_skew_and_nonce_replay [] [([5], 180)]
    { client_public_key := pubKey 0, service_public_key := [],
      time := 0, nonce := [5],
      signature := signBytes 0 (serializeRequest
        { client_public_key := pubKey 0, service_public_key := [],
          time := 0, nonce := [5], signature := [] }) } 100 0).2.2.1
    180 [5] (by simp) rfl (by norm_num)

theorem vck_ne_node (E : Nat) : get_verifier_commit_key E ≠ "node" := by
  intro h
  have hd := congrArg String.data h
  simp [get_verifier_commit_key, String.data_append] at hd

theorem vrk_ne_node (E : Nat) : get_verifier_reveal_key E ≠ "node" := by
  intro h
  have hd := congrArg String.data h
  simp [get_verifier_reveal_key, String.data_append] at hd

theorem srk_ne_node (E : Nat) : get_scores_reveal_key E ≠ "node" := by
  intro h
  have hd := congrArg String.data h
  simp [get_scores_reveal_key, String.data_append] at hd

theorem sck_ne_node (E : Nat) : get_scores_commit_key E ≠ "node" := by
  intro h
  have hd := congrArg String.data h
  simp [get_scores_commit_key, String.data_append] at hd

theorem vck_ne_srk (E F : Nat) : get_verifier_commit_key E ≠ get_scores_reveal_key F := by
  intro h
  have hd := congrArg String.data h
  simp [get_verifier_commit_key, get_scores_reveal_key, String.data_append] at hd

theorem vrk_ne_srk (E F : Nat) : get_verifier_reveal_key E ≠ get_scores_reveal_key F := by
  intro h
  have hd := congrArg String.data h
  simp [get_verifier_reveal_key, get_scores_reveal_key, String.data_append] at hd

theorem vrk_ne_vck (E F : Nat) : get_verifier_reveal_key E ≠ get_verifier_commit_key F := by
  intro h
  have hd := congrArg String.data h
  simp [get_verifier_reveal_key, get_verifier_commit_key, String.data_append] at hd

theorem sck_ne_srk (E F : Nat) : get_scores_commit_key E ≠ get_scores_reveal_key F := by
  intro h
  have hd := congrArg String.data h
  simp [get_scores_commit_key, get_scores_reveal_key, String.data_append] at hd

theorem sck_ne_vck (E F : Nat) : get_scores_commit_key E ≠ get_verifier_commit_key F := by
  intro h
  have hd := congrArg String.data h
  simp [get_scores_commit_key, get_verifier_commit_key, String.data_append] at hd

theorem sck_ne_vrk (E F : Nat) : get_scores_commit_key E ≠ get_verifier_reveal_key F := by
  intro h
  have hd := congrArg String.data h
  simp [get_scores_commit_key, get_verifier_reveal_key, String.data_append] at hd

theorem getKeyType_node (E : Nat) : getKeyType "node" E = some KeyType.node := by
  unfold getKeyType
  rw [if_pos rfl]

theorem getKeyType_srk (E : Nat) :
    getKeyType (get_scores_reveal_key E) E = some KeyType.scores_reveal := by
  unfold getKeyType
  rw [if_neg (srk_ne_node E), if_pos rfl]

theorem getKeyType_vck (E : Nat) :
    getKeyType (get_verifier_commit_key E) E = some KeyType.verifier_commit := by
  unfold getKeyType
  rw [if_neg (vck_ne_node E), if_neg (vck_ne_srk E E), if_pos rfl]

theorem getKeyType_vrk (E : Nat) :
    getKeyType (get_verifier_reveal_key E) E = some KeyType.verifier_reveal := by
  unfold getKeyType
  rw [if_neg (vrk_ne_node E), if_neg (vrk_ne_srk E E), if_neg (vrk_ne_vck E E),
    if_pos rfl]

theorem getKeyType_sck (E : Nat) :
    getKeyType (get_scores_commit_key E) E = some KeyType.scores_commit := by
  unfold getKeyType
  rw [if_neg (sck_ne_node E), if_neg (sck_ne_srk E E), if_neg (sck_ne_vck E E),
    if_neg (sck_ne_vrk E E), if_pos rfl]

theorem getKeyType_none (key : String) (E : Nat) (h0 : key ≠ "node")
    (h1 : key ≠ get_scores_reveal_key E) (h2 : key ≠ get_verifier_commit_key E)
    (h3 : key ≠ get_verifier_reveal_key E) (h4 : key ≠ get_scores_commit_key E) :
    getKeyType key E = none := by
  unfold getKeyType
  rw [if_neg h0, if_neg h1, if_neg h2, if_neg h3, if_neg h4]

theorem cleanup_tracker_current (st : CRState) (E : Nat) (k : KeyType) (p : String) :
    (cleanup_old_epochs st E).tracker E k p = st.tracker E k p := by
  unfold cleanup_old_epochs
  dsimp only
  rw [if_neg]
  omega

theorem mockCall_post_none_peer (st : CRState) (r : CRRecord) (ep : EpochDataM)
    (dt : ℚ) (h : r.subkey_peer = none) :
    mockCall st r ReqType.POST ep dt = (false, st) := by
  unfold mockCall
  rw [h]

theorem mockCall_post_spec (st : CRState) (r : CRRecord) (ep : EpochDataM)
    (dt : ℚ) (kt : KeyType) (P : String) (hp : r.subkey_peer = some P)
    (hk : getKeyType r.key ep.epoch = some kt) :
    mockCall st r ReqType.POST ep dt =
      (if has_exceeded_store_limit (cleanup_old_epochs st ep.epoch) P kt ep.epoch then
        (false, cleanup_old_epochs st ep.epoch)
      else if phase_ok kt ep.percent_complete ∧
          expiration_ok kt r.expiration_time dt then
        (true, record_peer_store (cleanup_old_epochs st ep.epoch) P kt ep.epoch)
      else (false, cleanup_old_epochs st ep.epoch)) := by
  unfold mockCall
  rw [hp]
  dsimp only
  rw [if_neg (by decide : ¬ (ReqType.POST = ReqType.GET)), hk]

theorem mockCall_post_key_none (st : CRState) (r : CRRecord) (ep : EpochDataM)
    (dt : ℚ) (P : String) (hp : r.subkey_peer = some P)
    (hk : getKeyType r.key ep.epoch = none) :
    mockCall st r ReqType.POST ep dt = (false, cleanup_old_epochs st ep.epoch) := by
  unfold mockCall
  rw [hp]
  dsimp only
  rw [if_neg (by decide : ¬ (ReqType.POST = ReqType.GET)), hk]

theorem mockCall_accept_phase (st : CRState) (r : CRRecord) (ep : EpochDataM)
    (dt : ℚ) (kt : KeyType) (hk : getKeyType r.key ep.epoch = some kt)
    (hacc : (mockCall st r ReqType.POST ep dt).1 = true) :
    phase_ok kt ep.percent_complete = true := by
  cases hp : r.subkey_peer with
  | none => rw [mockCall_post_none_peer st r ep dt hp] at hacc; simp at hacc
  | some P =>
    rw [mockCall_post_spec st r ep dt kt P hp hk] at hacc
    by_cases h1 : has_exceeded_store_limit (cleanup_old_epochs st ep.epoch) P kt ep.epoch
    · rw [if_pos h1] at hacc; simp at hacc
    · rw [if_neg h1] at hacc
      by_cases h2 : phase_ok kt ep.percent_complete ∧
          expiration_ok kt r.expiration_time dt
      · exact h2.1
      · rw [if_neg h2] at hacc; simp at hacc

theorem mockStep_tracker_count (st : CRState) (c : CRCall) (E : Nat)
    (kt : KeyType) (P : String) (hE : c.2.1.epoch = E) :
    (mockCall st c.1 ReqType.POST c.2.1 c.2.2).2.tracker E kt P =
      st.tracker E kt P +
        (if (mockCall st c.1 ReqType.POST c.2.1 c.2.2).1 = true ∧
            getKeyType c.1.key E = some kt ∧ c.1.subkey_peer = some P then 1
          else 0) := by
  subst hE
  cases hp : c.1.subkey_peer with
  | none =>
    rw [mockCall_post_none_peer _ _ _ _ hp]
    simp [hp]
  | some Q =>
    cases hk : getKeyType c.1.key c.2.1.epoch with
    | none =>
      have hcall : mockCall st c.1 ReqType.POST c.2.1 c.2.2 =
          (false, cleanup_old_epochs st c.2.1.epoch) :=
        mockCall_post_key_none _ _ _ _ Q hp hk
      rw [hcall]
      simp [hk, cleanup_tracker_current]
    | some kt0 =>
      by_cases h1 : has_exceeded_store_limit (cleanup_old_epochs st c.2.1.epoch) Q
          kt0 c.2.1.epoch
      · have hcall : mockCall st c.1 ReqType.POST c.2.1 c.2.2 =
            (false, cleanup_old_epochs st c.2.1.epoch) := by
          rw [mockCall_post_spec _ _ _ _ kt0 Q hp hk, if_pos h1]
        rw [hcall]
        simp [cleanup_tracker_current]
      · by_cases h2 : phase_ok kt0 c.2.1.percent_complete ∧
            expiration_ok kt0 c.1.expiration_time c.2.2
        · have hcall : mockCall st c.1 ReqType.POST c.2.1 c.2.2 =
              (true, record_peer_store (cleanup_old_epochs st c.2.1.epoch) Q
                kt0 c.2.1.epoch) := by
            rw [mockCall_post_spec _ _ _ _ kt0 Q hp hk, if_neg h1, if_pos h2]
          rw [hcall]
          dsimp only
          by_cases hmatch : kt0 = kt ∧ Q = P
          · obtain ⟨hk1, hq1⟩ := hmatch
            subst hk1
            subst hq1
            rw [if_pos ⟨rfl, rfl, rfl⟩]
            unfold record_peer_store
            dsimp only
            rw [if_pos ⟨rfl, rfl, rfl⟩, cleanup_tracker_current]
          · have hB : ¬ ((true : Bool) = true ∧
                (some kt0 : Option KeyType) = some kt ∧
                (some Q : Option String) = some P) := by
              intro h
              exact hmatch ⟨Option.some.inj h.2.1, Option.some.inj h.2.2⟩
            rw [if_neg hB]
            unfold record_peer_store
            dsimp only
            rw [if_neg fun h => hmatch ⟨h.2.1.symm, h.2.2.symm⟩,
              cleanup_tracker_current]
            omega
        · have hcall : mockCall st c.1 ReqType.POST c.2.1 c.2.2 =
              (false, cleanup_old_epochs st c.2.1.epoch) := by
            rw [mockCall_post_spec _ _ _ _ kt0 Q hp hk, if_neg h1, if_neg h2]
          rw [hcall]
          simp [cleanup_tracker_current]

theorem mockRun_tracker_count (calls : List CRCall) (st : CRState) (E : Nat)
    (kt : KeyType) (P : String) (hE : ∀ c ∈ calls, c.2.1.epoch = E) :
    (mockRun st calls).tracker E kt P =
      st.tracker E kt P + acceptedStores kt P E st calls := by
  induction calls generalizing st with
  | nil => simp [mockRun, acceptedStores]
  | cons c rest ih =>
    unfold mockRun acceptedStores
    dsimp only
    rw [ih _ (fun d hd => hE d (List.mem_cons_of_mem c hd))]
    rw [mockStep_tracker_count st c E kt P (hE c (List.mem_cons_self c rest))]
    omega

/-- The per-family bound on every counter is preserved by each call. -/
def TrackerBounded (st : CRState) : Prop :=
  ∀ e k p, st.tracker e k p ≤ per_peer_epoch_limits k

theorem mockStep_bounded (st : CRState) (r : CRRecord) (ty : ReqType)
    (ep : EpochDataM) (dt : ℚ) (h : TrackerBounded st) :
    TrackerBounded (mockCall st r ty ep dt).2 := by
  have hclean : TrackerBounded (cleanup_old_epochs st ep.epoch) := by
    intro e k p
    unfold cleanup_old_epochs
    dsimp only
    split
    · exact Nat.zero_le _
    · exact h e k p
  unfold mockCall
  cases hp : r.subkey_peer with
  | none => exact h
  | some P =>
    dsimp only
    split
    · exact h
    · cases hk : getKeyType r.key ep.epoch with
      | none => exact hclean
      | some kt =>
        dsimp only
        by_cases h1 : has_exceeded_store_limit (cleanup_old_epochs st ep.epoch) P
            kt ep.epoch
        · rw [if_pos h1]
          exact hclean
        · rw [if_neg h1]
          split
          · intro e k p
            unfold record_peer_store
            dsimp only
            split
            · rename_i hcon
              obtain ⟨he, hkk, hpp⟩ := hcon
              have hlt : (cleanup_old_epochs st ep.epoch).tracker ep.epoch kt P <
                  per_peer_epoch_limits kt := by
                unfold has_exceeded_store_limit at h1
                simpa using h1
              rw [he, hkk, hpp]
              omega
            · exact hclean e k p
          · exact hclean

theorem mockRun_bounded (calls : List CRCall) (st : CRState)
    (h : TrackerBounded st) : TrackerBounded (mockRun st calls) := by
  induction calls generalizing st with
  | nil => exact h
  | cons c rest ih =>
    exact ih _ (mockStep_bounded st c.1 ReqType.POST c.2.1 c.2.2 h)

/-- Claim C2: phase gating, whitelist and quota enforcement of
`MockHypertensorCommitReveal.__call__` for POST requests.

* stores to `verifier_commit_epoch_{E}` are accepted only while
  `percent_complete ≤ 0.5`, to `verifier_reveal_epoch_{E}` and
  `scores_reveal_epoch_{E}` only while `0.5 < percent_complete ≤ 0.6`, and to
  `scores_commit_epoch_{E}` only while `percent_complete > 0.6`;
* a key that is neither `node` nor one of the four current-epoch family keys
  is rejected;
* the per-peer per-epoch caps are exactly 100 for `node` and 1 for each
  other family: a POST finding the counter at the cap is rejected, an
  accepted POST increments the counter from strictly below the cap, and over
  any sequence of POSTs at epoch `E` starting from the initial state the
  number of accepted stores per family and peer never exceeds the cap. -/
theorem c2_phase_gating_and_quota (st : CRState) (r : CRRecord)
    (ep : EpochDataM) (dt : ℚ) (E : Nat) (kt : KeyType) (P : String) :
    (r.key = get_verifier_commit_key ep.epoch →
      (mockCall st r ReqType.POST ep dt).1 = true →
      ep.percent_complete ≤ 1 / 2) ∧
    (r.key = get_verifier_reveal_key ep.epoch →
      (mockCall st r ReqType.POST ep dt).1 = true →
      1 / 2 < ep.percent_complete ∧ ep.percent_complete ≤ 3 / 5) ∧
    (r.key = get_scores_reveal_key ep.epoch →
      (mockCall st r ReqType.POST ep dt).1 = true →
      1 / 2 < ep.percent_complete ∧ ep.percent_complete ≤ 3 / 5) ∧
    (r.key = get_scores_commit_key ep.epoch →
      (mockCall st r ReqType.POST ep dt).1 = true →
      3 / 5 < ep.percent_complete) ∧
    (r.key ≠ "node" → r.key ≠ get_scores_reveal_key ep.epoch →
      r.key ≠ get_verifier_commit_key ep.epoch →
      r.key ≠ get_verifier_reveal_key ep.epoch →
      r.key ≠ get_scores_commit_key ep.epoch →
      (mockCall st r ReqType.POST ep dt).1 = false) ∧
    (r.subkey_peer = some P → getKeyType r.key ep.epoch = some kt →
      per_peer_epoch_limits kt ≤ st.tracker ep.epoch kt P →
      (mockCall st r ReqType.POST ep dt).1 = false) ∧
    (r.subkey_peer = some P → getKeyType r.key ep.epoch = some kt →
      st.tracker ep.epoch kt P < per_peer_epoch_limits kt →
      phase_ok kt ep.percent_complete = true →
      expiration_ok kt r.expiration_time dt = true →
      (mockCall st r ReqType.POST ep dt).1 = true ∧
        (mockCall st r ReqType.POST ep dt).2.tracker ep.epoch kt P =
          st.tracker ep.epoch kt P + 1) ∧
    (per_peer_epoch_limits KeyType.node = 100 ∧
      ∀ k, k ≠ KeyType.node → per_peer_epoch_limits k = 1) ∧
    (∀ calls : List CRCall, (∀ c ∈ calls, c.2.1.epoch = E) →
      acceptedStores kt P E CRState.initial calls ≤ per_peer_epoch_limits kt) := by
  refine ⟨?_, ?_, ?_, ?_, ?_, ?_, ?_, ?_, ?_⟩
  · intro hkey hacc
    have hk : getKeyType r.key ep.epoch = some KeyType.verifier_commit := by
      rw [hkey]; exact getKeyType_vck ep.epoch
    have := mockCall_accept_phase st r ep dt _ hk hacc
    unfold phase_ok VERIFIER_COMMIT_DEADLINE at this
    simpa using this
  · intro hkey hacc
    have hk : getKeyType r.key ep.epoch = some KeyType.verifier_reveal := by
      rw [hkey]; exact getKeyType_vrk ep.epoch
    have := mockCall_accept_phase st r ep dt _ hk hacc
    unfold phase_ok VERIFIER_COMMIT_DEADLINE VERIFIER_REVEAL_DEADLINE at this
    simpa using this
  · intro hkey hacc
    have hk : getKeyType r.key ep.epoch = some KeyType.scores_reveal := by
      rw [hkey]; exact getKeyType_srk ep.epoch
    have := mockCall_accept_phase st r ep dt _ hk hacc
    unfold phase_ok VERIFIER_COMMIT_DEADLINE SCORES_REVEAL_DEADLINE at this
    simpa using this
  · intro hkey hacc
    have hk : getKeyType r.key ep.epoch = some KeyType.scores_commit := by
      rw [hkey]; exact getKeyType_sck ep.epoch
    have := mockCall_accept_phase st r ep dt _ hk hacc
    unfold phase_ok SCORES_REVEAL_DEADLINE at this
    simpa using this
  · intro h0 h1 h2 h3 h4
    have hk := getKeyType_none r.key ep.epoch h0 h1 h2 h3 h4
    cases hp : r.subkey_peer with
    | none => rw [mockCall_post_none_peer st r ep dt hp]
    | some Q => rw [mockCall_post_key_none st r ep dt Q hp hk]
  · intro hp hk hcap
    rw [mockCall_post_spec st r ep dt kt P hp hk]
    rw [if_pos]
    unfold has_exceeded_store_limit
    rw [cleanup_tracker_current]
    simpa using hcap
  · intro hp hk hlt hph hex
    rw [mockCall_post_spec st r ep dt kt P hp hk]
    have hnotex : ¬ has_exceeded_store_limit (cleanup_old_epochs st ep.epoch) P
        kt ep.epoch = true := by
      unfold has_exceeded_store_limit
      rw [cleanup_tracker_current]
      simpa using Nat.not_le.mpr hlt
    rw [if_neg (by simpa using hnotex), if_pos ⟨hph, hex⟩]
    refine ⟨rfl, ?_⟩
    unfold record_peer_store
    dsimp only
    rw [if_pos ⟨rfl, rfl, rfl⟩, cleanup_tracker_current]
  · exact ⟨rfl, fun k hk => by cases k <;> simp_all [per_peer_epoch_limits]⟩
  · intro calls hcalls
    have hcount := mockRun_tracker_count calls CRState.initial E kt P hcalls
    have hbound := mockRun_bounded calls CRState.initial
      (by intro e k p; simp [CRState.initial])
    have := hbound E kt P
    rw [hcount] at this
    simpa [CRState.initial] using this

theorem c2_phase_gating_and_quota_witness :
    (mockCall CRState.initial
        ⟨get_scores_commit_key 3, some "peerA", 100⟩ ReqType.POST ⟨3, 7/10⟩ 0).1 =
      true :=
  ((c2_phase_gating_and_quota CRState.initial
      ⟨get_scores_commit_key 3, some "peerA", 100⟩ ⟨3, 7/10⟩ 0 3
      KeyType.scores_commit "peerA").2.2.2.2.2.2.1 rfl (getKeyType_sck 3)
      (by simp [CRState.initial, per_peer_epoch_limits])
      (by unfold phase_ok SCORES_REVEAL_DEADLINE; norm_num)
      (by unfold expiration_ok MAX_COMMIT_TIME BLOCK_SECS EPOCH_LENGTH; norm_num)).1

/-- Claim C9: once the record's subkey yields a caller peer id (the
signature-validation precondition), a GET request is always allowed,
whatever the key, the epoch phase or the per-peer counters, and the tracker
state is untouched. -/
theorem c9_get_always_allowed (st : CRState) (r : CRRecord) (ep : EpochDataM)
    (dt : ℚ) (P : String) (h : r.subkey_peer = some P) :
    mockCall st r ReqType.GET ep dt = (true, st) := by
  unfold mockCall
  rw [h]
  simp

theorem c9_get_always_allowed_witness :
    mockCall CRState.initial ⟨"definitely_not_whitelisted", some "peerB", 10^9⟩
      ReqType.GET ⟨0, 99/100⟩ 0 = (true, CRState.initial) :=
  c9_get_always_allowed CRState.initial
    ⟨"definitely_not_whitelisted", some "peerB", 10^9⟩ ⟨0, 99/100⟩ 0 "peerB" rfl

/-- Claim C8, as frozen, says the loop aborts after 3 consecutive missing
reads of the subnet info.  After 3 consecutive `None` readings the loop is
still waiting (`errors_count` is only 3 and the abort test is
`errors_count > 3` *before* the increment), refuting the claim; indeed even
a 4th consecutive miss does not abort. -/
theorem c8_counterexample :
    runActivate (List.replicate 3 none) ≠ ActResult.shutdownFalse ∧
    runActivate (List.replicate 4 none) ≠ ActResult.shutdownFalse := by
  constructor <;> decide

/-- Claim C8 (amended): the loop tolerates up to 4 missing reads — not
necessarily consecutive, since a read returning a non-`Active` subnet never
resets the error counter — and aborts on the 5th missing read, at which
point it calls `shutdown` and returns `False` (`ActResult.shutdownFalse`)
instead of continuing to wait. -/
theorem c8_activate_abort_after_five (rest : List (Option SubnetInfoM))
    (inactive : SubnetInfoM) (hin : inactive.state ≠ "Active") :
    runActivate (List.replicate 5 none ++ rest) = ActResult.shutdownFalse ∧
    runActivate (List.replicate 4 none ++ [some ⟨"Active"⟩]) = ActResult.active ∧
    runActivate (List.replicate 4 none) = ActResult.pending ∧
    runActivate (List.replicate 4 none ++ [some inactive] ++ [none] ++ rest) =
      ActResult.shutdownFalse := by
  refine ⟨?_, by decide, by decide, ?_⟩
  · simp [runActivate, runActivateAux]
  · simp [runActivate, runActivateAux, hin]

theorem c8_activate_abort_after_five_witness :
    runActivate (List.replicate 4 none ++ [some ⟨"Registered"⟩] ++ [none] ++ []) =
      ActResult.shutdownFalse :=
  (c8_activate_abort_after_five [] ⟨"Registered"⟩ (by decide)).2.2.2

theorem c6_pos_cache_cooldown_witness :
    proof_of_stake
      { success := fun _ => none, fail := fun q => if q = 7 then some 50 else none }
      (fun _ => true) 7 100 =
      (false, { success := fun _ => none,
                fail := fun q => if q = 7 then some 50 else none }, false) :=
  (c6_pos_cache_cooldown (fun _ => true)
      { success := fun _ => none, fail := fun q => if q = 7 then some 50 else none }
      7 50 100 (by norm_num)).1 (by simp) (by norm_num)

end SubnetCR
